import Mathlib

/-!
Verification model of `src/src/engines/kvs.rs` — a log-structured
key-value store (`KvStore`).

Modelling conventions:

* A segment file is a `List Nat` of "bytes".  The serde_json serialization
  layer is replaced by a concrete injective, self-delimiting encoding
  (`encodeCmd`/`decodeOne`): what the engine relies on from the
  serialization layer is exactly (a) round-tripping, (b) self-delimiting
  sequential decoding that reports bytes consumed (`Deserializer::byte_offset`),
  and (c) that decoding an exact recorded byte range yields the recorded
  command.  All offset/length arithmetic of the engine is kept verbatim.
* The `readers` map (gen → open reader) and the on-disk directory always
  hold exactly the same generations: `new_log_file` creates the file and
  inserts the reader, compaction removes the reader and deletes the file
  in the same step, and `open` creates one reader per discovered file.
  The model therefore keeps a single association list `segs : gen → bytes`
  standing for both; `HashMap` is order-insensitive, so the list is kept
  sorted by generation.
* `BTreeMap<String, CommandPos>` is an association list kept sorted by key
  (iteration order of `index.values_mut()` in `compact` is key order).
* The writer's `pos` always equals the active segment's file length
  (append-mode writes), so no separate writer-position field is kept.
* The `.expect("Cannot find log reader")` panics in `get` and `compact`
  are modelled by a dedicated error value `PanicNoReader`.
* I/O failures are not modelled; every modelled failure is a decode
  failure (`SerializationFailure`), `KeyNotFound`, `UnexpectedCommandType`
  or the panic above.
-/

set_option maxHeartbeats 1000000
set_option maxRecDepth 4000
set_option linter.unusedVariables false
set_option linter.unusedSectionVars false

namespace Kvs

/-- `COMPACTION_THRESHOLD` (kvs.rs line 14). -/
def COMPACTION_THRESHOLD : Nat := 1024 * 1024

/-- The `Command` enum (kvs.rs lines 226-239). -/
inductive Command where
  | Set (key value : String)
  | Remove (key : String)
deriving DecidableEq, Repr

/-- `CommandPos` (kvs.rs lines 241-252). -/
structure CommandPos where
  gen : Nat
  pos : Nat
  len : Nat
deriving DecidableEq, Repr

/-- Encoding of a string in the modelled serialization format:
a length prefix followed by the character codes. -/
def encodeStr (s : String) : List Nat :=
  s.length :: s.toList.map Char.toNat

/-- Encoding of one `Command` record (stands for `serde_json::to_writer`). -/
def encodeCmd : Command → List Nat
  | .Set k v => 0 :: (encodeStr k ++ encodeStr v)
  | .Remove k => 1 :: encodeStr k

/-- Decode a length-prefixed string, returning the remaining bytes. -/
def decodeStr : List Nat → Option (String × List Nat)
  | [] => none
  | n :: rest =>
    if n ≤ rest.length then
      some (String.mk ((rest.take n).map Char.ofNat), rest.drop n)
    else none

/-- Decode one command from the head of a byte stream, returning the
remaining bytes (stands for one step of `Deserializer::into_iter`). -/
def decodeOne : List Nat → Option (Command × List Nat)
  | 0 :: rest =>
    match decodeStr rest with
    | some (k, r1) =>
      match decodeStr r1 with
      | some (v, r2) => some (.Set k v, r2)
      | none => none
    | none => none
  | 1 :: rest =>
    match decodeStr rest with
    | some (k, r1) => some (.Remove k, r1)
    | none => none
  | _ => none

/-- Decode a byte range that must hold exactly one command
(stands for `serde_json::from_reader` on a `take(len)` reader,
which rejects trailing data). -/
def decodeCmd (bs : List Nat) : Option Command :=
  match decodeOne bs with
  | some (c, []) => some c
  | _ => none

theorem char_ofNat_toNat (c : Char) : Char.ofNat c.toNat = c := by
  have hv : c.val.toNat.isValidChar := c.valid
  simp only [Char.ofNat, Char.toNat, hv, dif_pos, Char.ofNatAux]
  ext
  simp [UInt32.ofNat', BitVec.toNat_ofNatLt, UInt32.toNat]

theorem decodeStr_encodeStr (s : String) (r : List Nat) :
    decodeStr (encodeStr s ++ r) = some (s, r) := by
  have hlen : s.length = (s.toList.map Char.toNat).length := by
    rw [List.length_map]; rfl
  simp only [encodeStr, List.cons_append, decodeStr]
  rw [if_pos (by rw [hlen]; simp)]
  rw [hlen, List.take_left, List.drop_left]
  congr 1
  congr 1
  rw [List.map_map]
  have : (Char.ofNat ∘ Char.toNat) = id := by
    funext c; exact char_ofNat_toNat c
  rw [this, List.map_id]
  cases s; rfl

theorem decodeStr_suffix {bs r : List Nat} {s : String}
    (h : decodeStr bs = some (s, r)) :
    r.length < bs.length ∧
      bs.take (bs.length - r.length) ++ r = bs ∧
      decodeStr (bs.take (bs.length - r.length)) = some (s, []) := by
  match bs with
  | [] => simp [decodeStr] at h
  | n :: rest =>
    simp only [decodeStr] at h
    by_cases hn : n ≤ rest.length
    · rw [if_pos hn] at h
      have hr : r = rest.drop n := by
        have := congrArg (fun x => (Option.map Prod.snd x)) h
        simpa using this.symm
      have hs : s = String.mk ((rest.take n).map Char.ofNat) := by
        have := congrArg (fun x => (Option.map Prod.fst x)) h
        simpa using this.symm
      have hrl : r.length = rest.length - n := by rw [hr]; simp
      have hcons : (n :: rest).length - r.length = n + 1 := by
        simp only [List.length_cons, hrl]; omega
      refine ⟨?_, ?_, ?_⟩
      · simp only [List.length_cons, hrl]; omega
      · rw [hcons]
        simp only [List.take_succ_cons, List.cons_append, hr]
        rw [List.take_append_drop]
      · rw [hcons]
        simp only [List.take_succ_cons, decodeStr]
        rw [if_pos (by simp [List.length_take]; omega)]
        have htake : (rest.take n).take n = rest.take n := by
          simp
        have hdrop : (rest.take n).drop n = [] := by
          apply List.drop_eq_nil_of_le; simp
        rw [htake, hdrop, hs]
    · rw [if_neg hn] at h; simp at h

theorem decodeStr_append {bs r t : List Nat} {s : String}
    (h : decodeStr bs = some (s, r)) :
    decodeStr (bs ++ t) = some (s, r ++ t) := by
  match bs with
  | [] => simp [decodeStr] at h
  | n :: rest =>
    simp only [decodeStr] at h
    by_cases hn : n ≤ rest.length
    · rw [if_pos hn] at h
      simp only [List.cons_append, decodeStr]
      rw [if_pos (by simp; omega)]
      rw [List.take_append_of_le_length hn, List.drop_append_of_le_length hn]
      have hr : r = rest.drop n := by
        have := congrArg (fun x => (Option.map Prod.snd x)) h
        simpa using this.symm
      have hs : s = String.mk ((rest.take n).map Char.ofNat) := by
        have := congrArg (fun x => (Option.map Prod.fst x)) h
        simpa using this.symm
      rw [hr, hs]
    · rw [if_neg hn] at h; simp at h

theorem decodeOne_append {bs r t : List Nat} {c : Command}
    (h : decodeOne bs = some (c, r)) :
    decodeOne (bs ++ t) = some (c, r ++ t) := by
  match bs with
  | [] => simp [decodeOne] at h
  | 0 :: rest =>
    rw [List.cons_append]
    simp only [decodeOne] at h ⊢
    cases h1 : decodeStr rest with
    | none => simp only [h1] at h; exact Option.noConfusion h
    | some p1 =>
      obtain ⟨k, r1⟩ := p1
      simp only [h1] at h
      cases h2 : decodeStr r1 with
      | none => simp only [h2] at h; exact Option.noConfusion h
      | some p2 =>
        obtain ⟨v, r2⟩ := p2
        simp only [h2] at h
        simp only [Option.some.injEq, Prod.mk.injEq] at h
        simp only [decodeStr_append h1, decodeStr_append h2]
        simp [h.1, h.2]
  | 1 :: rest =>
    rw [List.cons_append]
    simp only [decodeOne] at h ⊢
    cases h1 : decodeStr rest with
    | none => simp only [h1] at h; exact Option.noConfusion h
    | some p1 =>
      obtain ⟨k, r1⟩ := p1
      simp only [h1] at h
      simp only [Option.some.injEq, Prod.mk.injEq] at h
      simp only [decodeStr_append h1]
      simp [h.1, h.2]
  | (n+2) :: rest => simp [decodeOne] at h

theorem decodeOne_encodeCmd (c : Command) (r : List Nat) :
    decodeOne (encodeCmd c ++ r) = some (c, r) := by
  cases c with
  | Set k v =>
    simp only [encodeCmd, List.cons_append, List.append_assoc, decodeOne]
    simp only [decodeStr_encodeStr]
  | Remove k =>
    simp only [encodeCmd, List.cons_append, decodeOne]
    simp only [decodeStr_encodeStr]

/-! ### Key orders

Rust's `BTreeMap<String, _>` orders keys lexicographically by UTF-8 bytes,
which coincides with lexicographic order on unicode scalar values.
`String.ltb` does not reduce in the kernel, so the model carries its own
lexicographic order on the character lists. -/

def lexLt : List Char → List Char → Bool
  | [], [] => false
  | [], _ :: _ => true
  | _ :: _, [] => false
  | a :: as, b :: bs => if a < b then true else if b < a then false else lexLt as bs

def strLt (a b : String) : Bool := lexLt a.data b.data

theorem lexLt_irrefl (a : List Char) : lexLt a a = false := by
  induction a with
  | nil => rfl
  | cons c rest ih => simp [lexLt, ih]

theorem lexLt_trans {a b c : List Char} (h1 : lexLt a b = true)
    (h2 : lexLt b c = true) : lexLt a c = true := by
  induction a generalizing b c with
  | nil =>
    cases b with
    | nil => simp [lexLt] at h1
    | cons y bs =>
      cases c with
      | nil => simp [lexLt] at h2
      | cons z cs => simp [lexLt]
  | cons x as ih =>
    cases b with
    | nil => simp [lexLt] at h1
    | cons y bs =>
      cases c with
      | nil => simp [lexLt] at h2
      | cons z cs =>
        simp only [lexLt] at h1 h2 ⊢
        rcases lt_trichotomy x y with hxy | hxy | hxy
        · rcases lt_trichotomy y z with hyz | hyz | hyz
          · simp [lt_trans hxy hyz]
          · subst hyz; simp [hxy]
          · rw [if_pos hxy] at h1
            rw [if_neg (lt_asymm hyz), if_pos hyz] at h2
            exact absurd h2 (by simp)
        · subst hxy
          rw [if_neg (lt_irrefl x), if_neg (lt_irrefl x)] at h1
          rcases lt_trichotomy x z with hyz | hyz | hyz
          · simp [hyz]
          · subst hyz
            rw [if_neg (lt_irrefl x), if_neg (lt_irrefl x)] at h2
            simp [lt_irrefl x, ih h1 h2]
          · rw [if_neg (lt_asymm hyz), if_pos hyz] at h2
            exact absurd h2 (by simp)
        · rw [if_neg (lt_asymm hxy), if_pos hxy] at h1
          exact absurd h1 (by simp)

theorem lexLt_total {a b : List Char} (h1 : lexLt a b = false)
    (h2 : lexLt b a = false) : a = b := by
  induction a generalizing b with
  | nil =>
    cases b with
    | nil => rfl
    | cons y bs => simp [lexLt] at h1
  | cons x as ih =>
    cases b with
    | nil => simp [lexLt] at h2
    | cons y bs =>
      simp only [lexLt] at h1 h2
      rcases lt_trichotomy x y with hxy | hxy | hxy
      · rw [if_pos hxy] at h1; exact absurd h1 (by simp)
      · subst hxy
        rw [if_neg (lt_irrefl x), if_neg (lt_irrefl x)] at h1 h2
        rw [ih h1 h2]
      · rw [if_pos hxy] at h2; exact absurd h2 (by simp)

theorem strLt_irrefl (a : String) : strLt a a = false := lexLt_irrefl a.data

theorem strLt_trans {a b c : String} (h1 : strLt a b = true)
    (h2 : strLt b c = true) : strLt a c = true := lexLt_trans h1 h2

theorem strLt_total {a b : String} (h1 : strLt a b = false)
    (h2 : strLt b a = false) : a = b := by
  cases a; cases b
  exact congrArg String.mk (lexLt_total h1 h2)

def natLt (a b : Nat) : Bool := decide (a < b)

theorem natLt_irrefl (a : Nat) : natLt a a = false := by simp [natLt]

theorem natLt_trans {a b c : Nat} (h1 : natLt a b = true)
    (h2 : natLt b c = true) : natLt a c = true := by
  simp only [natLt, decide_eq_true_eq] at *; omega

theorem natLt_total {a b : Nat} (h1 : natLt a b = false)
    (h2 : natLt b a = false) : a = b := by
  simp only [natLt, decide_eq_false_iff_not] at *; omega

/-! ### Association-list maps, kept sorted by key.

These model `BTreeMap` (index, key order = iteration order) and the
`readers` `HashMap` together with the set of on-disk segment files
(order irrelevant for a hash map, so a canonical sorted representation
is chosen). -/

section AList

variable {κ α : Type} [DecidableEq κ]

def alLookup : List (κ × α) → κ → Option α
  | [], _ => none
  | p :: rest, k => if k = p.1 then some p.2 else alLookup rest k

variable (lt : κ → κ → Bool)

/-- `insert`, returning the previous binding (as `BTreeMap::insert` does). -/
def alInsert : List (κ × α) → κ → α → List (κ × α) × Option α
  | [], k, v => ([(k, v)], none)
  | p :: rest, k, v =>
    if lt k p.1 then ((k, v) :: p :: rest, none)
    else if k = p.1 then ((k, v) :: rest, some p.2)
    else
      let r := alInsert rest k v
      (p :: r.1, r.2)

/-- `remove`, returning the removed binding. -/
def alRemove : List (κ × α) → κ → List (κ × α) × Option α
  | [], _ => ([], none)
  | p :: rest, k =>
    if k = p.1 then (rest, some p.2)
    else
      let r := alRemove rest k
      (p :: r.1, r.2)

def alSorted (l : List (κ × α)) : Prop :=
  List.Pairwise (fun p q => lt p.1 q.1 = true) l

instance alSorted_decidable (l : List (κ × α)) : Decidable (alSorted lt l) := by
  unfold alSorted; infer_instance

theorem alLookup_eq_none_of_forall {l : List (κ × α)} {k : κ}
    (h : ∀ p ∈ l, p.1 ≠ k) : alLookup l k = none := by
  induction l with
  | nil => rfl
  | cons p rest ih =>
    simp only [alLookup]
    rw [if_neg (fun he => (h p (by simp)) he.symm)]
    exact ih (fun q hq => h q (by simp [hq]))

end AList


section AListLemmas

variable {κ α : Type} [DecidableEq κ] {lt : κ → κ → Bool}

theorem lt_asymm_of (hirr : ∀ a, lt a a = false)
    (htrans : ∀ {a b c}, lt a b = true → lt b c = true → lt a c = true)
    {a b : κ} (h : lt a b = true) : lt b a = false := by
  cases hba : lt b a with
  | false => rfl
  | true =>
    have := htrans h hba
    rw [hirr] at this
    exact Bool.noConfusion this

theorem alInsert_lookup_self (l : List (κ × α)) (k : κ) (v : α) :
    alLookup (alInsert lt l k v).1 k = some v := by
  induction l with
  | nil => simp [alInsert, alLookup]
  | cons p rest ih =>
    simp only [alInsert]
    by_cases h1 : lt k p.1 = true
    · rw [if_pos h1]; simp [alLookup]
    · rw [if_neg h1]
      by_cases h2 : k = p.1
      · rw [if_pos h2]; simp [alLookup]
      · rw [if_neg h2]
        simp only [alLookup]
        rw [if_neg h2]
        exact ih

theorem alInsert_lookup_ne (l : List (κ × α)) (k : κ) (v : α) {k' : κ}
    (hne : k' ≠ k) : alLookup (alInsert lt l k v).1 k' = alLookup l k' := by
  induction l with
  | nil => simp [alInsert, alLookup, hne]
  | cons p rest ih =>
    simp only [alInsert]
    by_cases h1 : lt k p.1 = true
    · rw [if_pos h1]
      simp only [alLookup]
      rw [if_neg hne]
    · rw [if_neg h1]
      by_cases h2 : k = p.1
      · subst h2
        simp only [if_pos rfl, alLookup]
        rw [if_neg hne, if_neg hne]
      · rw [if_neg h2]
        simp only [alLookup]
        by_cases h3 : k' = p.1
        · rw [if_pos h3, if_pos h3]
        · rw [if_neg h3, if_neg h3]
          exact ih

theorem alInsert_mem {l : List (κ × α)} {k : κ} {v : α} :
    ∀ p ∈ (alInsert lt l k v).1, p = (k, v) ∨ p ∈ l := by
  induction l with
  | nil => simp [alInsert]
  | cons q rest ih =>
    intro p hp
    simp only [alInsert] at hp
    by_cases h1 : lt k q.1 = true
    · rw [if_pos h1] at hp
      rcases List.mem_cons.mp hp with h | h
      · exact Or.inl h
      · exact Or.inr h
    · rw [if_neg h1] at hp
      by_cases h2 : k = q.1
      · rw [if_pos h2] at hp
        rcases List.mem_cons.mp hp with h | h
        · exact Or.inl h
        · exact Or.inr (List.mem_cons_of_mem q h)
      · rw [if_neg h2] at hp
        rcases List.mem_cons.mp hp with h | h
        · exact Or.inr (by simp [h])
        · rcases ih p h with h' | h'
          · exact Or.inl h'
          · exact Or.inr (List.mem_cons_of_mem q h')

theorem alInsert_snd (hirr : ∀ a, lt a a = false)
    (htrans : ∀ {a b c}, lt a b = true → lt b c = true → lt a c = true)
    {l : List (κ × α)} (hs : alSorted lt l) (k : κ) (v : α) :
    (alInsert lt l k v).2 = alLookup l k := by
  induction l with
  | nil => simp [alInsert, alLookup]
  | cons p rest ih =>
    simp only [alInsert, alLookup]
    by_cases h1 : lt k p.1 = true
    · rw [if_pos h1]
      have hne : k ≠ p.1 := by
        intro he; rw [he, hirr] at h1; exact Bool.noConfusion h1
      rw [if_neg hne]
      have hnone : ∀ q ∈ rest, q.1 ≠ k := by
        intro q hq he
        have hlt : lt p.1 q.1 = true := (List.pairwise_cons.mp hs).1 q hq
        rw [he] at hlt
        have := htrans h1 hlt
        rw [hirr] at this
        exact Bool.noConfusion this
      rw [alLookup_eq_none_of_forall hnone]
    · rw [if_neg h1]
      by_cases h2 : k = p.1
      · rw [if_pos h2, if_pos h2]
      · rw [if_neg h2, if_neg h2]
        exact ih (List.pairwise_cons.mp hs).2

theorem alInsert_sorted (hirr : ∀ a, lt a a = false)
    (htrans : ∀ {a b c}, lt a b = true → lt b c = true → lt a c = true)
    (htot : ∀ {a b}, lt a b = false → lt b a = false → a = b)
    {l : List (κ × α)} (hs : alSorted lt l) (k : κ) (v : α) :
    alSorted lt (alInsert lt l k v).1 := by
  induction l with
  | nil => simp [alInsert, alSorted]
  | cons p rest ih =>
    have hrest : alSorted lt rest := (List.pairwise_cons.mp hs).2
    have hhead : ∀ q ∈ rest, lt p.1 q.1 = true := (List.pairwise_cons.mp hs).1
    simp only [alInsert]
    by_cases h1 : lt k p.1 = true
    · rw [if_pos h1]
      refine List.pairwise_cons.mpr ⟨?_, hs⟩
      intro q hq
      rcases List.mem_cons.mp hq with h | h
      · rw [h]; exact h1
      · exact htrans h1 (hhead q h)
    · rw [if_neg h1]
      by_cases h2 : k = p.1
      · rw [if_pos h2]
        refine List.pairwise_cons.mpr ⟨?_, hrest⟩
        intro q hq
        rw [h2]
        exact hhead q hq
      · rw [if_neg h2]
        refine List.pairwise_cons.mpr ⟨?_, ih hrest⟩
        intro q hq
        rcases alInsert_mem q hq with h | h
        · rw [h]
          have h1' : lt k p.1 = false := Bool.eq_false_iff.mpr h1
          cases hb : lt p.1 k with
          | true => rfl
          | false => exact absurd (htot h1' hb) h2
        · exact hhead q h

theorem alRemove_snd (l : List (κ × α)) (k : κ) :
    (alRemove l k).2 = alLookup l k := by
  induction l with
  | nil => rfl
  | cons p rest ih =>
    simp only [alRemove, alLookup]
    by_cases h : k = p.1
    · rw [if_pos h, if_pos h]
    · rw [if_neg h, if_neg h]
      exact ih

theorem alRemove_sublist (l : List (κ × α)) (k : κ) :
    (alRemove l k).1.Sublist l := by
  induction l with
  | nil => simp [alRemove]
  | cons p rest ih =>
    simp only [alRemove]
    by_cases h : k = p.1
    · rw [if_pos h]
      exact List.sublist_cons_self p rest
    · rw [if_neg h]
      exact List.Sublist.cons₂ p ih

theorem alRemove_sorted {l : List (κ × α)} (hs : alSorted lt l) (k : κ) :
    alSorted lt (alRemove l k).1 :=
  List.Pairwise.sublist (alRemove_sublist l k) hs

theorem alRemove_lookup_self (hirr : ∀ a, lt a a = false)
    {l : List (κ × α)} (hs : alSorted lt l) (k : κ) :
    alLookup (alRemove l k).1 k = none := by
  induction l with
  | nil => rfl
  | cons p rest ih =>
    have hrest : alSorted lt rest := (List.pairwise_cons.mp hs).2
    have hhead : ∀ q ∈ rest, lt p.1 q.1 = true := (List.pairwise_cons.mp hs).1
    simp only [alRemove]
    by_cases h : k = p.1
    · rw [if_pos h]
      apply alLookup_eq_none_of_forall
      intro q hq he
      have hlt := hhead q hq
      rw [he, h, hirr] at hlt
      exact Bool.noConfusion hlt
    · rw [if_neg h]
      simp only [alLookup]
      rw [if_neg h]
      exact ih hrest

theorem alRemove_lookup_ne (l : List (κ × α)) (k : κ) {k' : κ}
    (hne : k' ≠ k) : alLookup (alRemove l k).1 k' = alLookup l k' := by
  induction l with
  | nil => rfl
  | cons p rest ih =>
    simp only [alRemove, alLookup]
    by_cases h : k = p.1
    · rw [if_pos h, if_neg (h ▸ hne)]
    · rw [if_neg h]
      simp only [alLookup]
      by_cases h3 : k' = p.1
      · rw [if_pos h3, if_pos h3]
      · rw [if_neg h3, if_neg h3]
        exact ih

theorem alInsert_append_max (hirr : ∀ a, lt a a = false)
    (htrans : ∀ {a b c}, lt a b = true → lt b c = true → lt a c = true)
    {l : List (κ × α)} {k : κ}
    (h : ∀ p ∈ l, lt p.1 k = true) (v : α) :
    alInsert lt l k v = (l ++ [(k, v)], none) := by
  induction l with
  | nil => simp [alInsert]
  | cons p rest ih =>
    have hp : lt p.1 k = true := h p (by simp)
    simp only [alInsert]
    rw [if_neg (by rw [lt_asymm_of hirr htrans hp]; simp)]
    rw [if_neg (fun he => by rw [he, hirr] at hp; exact Bool.noConfusion hp)]
    rw [ih (fun q hq => h q (by simp [hq]))]
    simp

end AListLemmas

/-! ### The store state and its operations -/

/-- Errors surfaced by the engine (`KvsError` in the crate, plus a value
for the `.expect("Cannot find log reader")` panic). -/
inductive KvsError where
  | KeyNotFound
  | UnexpectedCommandType
  | SerializationFailure
  | PanicNoReader
deriving DecidableEq, Repr

/-- The `KvStore` struct (kvs.rs lines 36-48).  `segs` models both the
on-disk directory and the `readers` map (see the header comment);
the writer position equals the active segment's length. -/
structure KvStore where
  segs : List (Nat × List Nat)
  index : List (String × CommandPos)
  current_gen : Nat
  stale_bytes : Nat
deriving DecidableEq, Repr

/-- Append `bs` to the file of generation `g` (a flushed write through the
active writer handle; the file is created if absent). -/
def segAppend : List (Nat × List Nat) → Nat → List Nat → List (Nat × List Nat)
  | [], g, bs => [(g, bs)]
  | (g', f) :: rest, g, bs =>
    if natLt g g' then (g, bs) :: (g', f) :: rest
    else if g = g' then (g', f ++ bs) :: rest
    else (g', f) :: segAppend rest g bs

/-- Replace the contents of generation `g` (flush of a writer that started
at position 0 on a fresh file). -/
def segWrite : List (Nat × List Nat) → Nat → List Nat → List (Nat × List Nat)
  | [], g, bs => [(g, bs)]
  | (g', f) :: rest, g, bs =>
    if natLt g g' then (g, bs) :: (g', f) :: rest
    else if g = g' then (g', bs) :: rest
    else (g', f) :: segWrite rest g bs

/-- Disk/readers effect of `new_log_file` (kvs.rs lines 295-311):
`OpenOptions::create(true).append(true)` creates the file when absent and
keeps existing content, and a reader for it is registered. -/
def new_log_file : List (Nat × List Nat) → Nat → List (Nat × List Nat)
  | [], g => [(g, [])]
  | (g', f) :: rest, g =>
    if natLt g g' then (g, []) :: (g', f) :: rest
    else if g = g' then (g', f) :: rest
    else (g', f) :: new_log_file rest g

theorem decodeOne_length_lt {bs r : List Nat} {c : Command}
    (h : decodeOne bs = some (c, r)) : r.length < bs.length := by
  rcases bs with _ | ⟨b, rest⟩
  · simp [decodeOne] at h
  · match b, h with
    | 0, h =>
      simp only [decodeOne] at h
      cases h1 : decodeStr rest with
      | none => simp only [h1] at h; exact Option.noConfusion h
      | some p1 =>
        obtain ⟨k1, r1⟩ := p1
        simp only [h1] at h
        cases h2 : decodeStr r1 with
        | none => simp only [h2] at h; exact Option.noConfusion h
        | some p2 =>
          obtain ⟨v2, r2⟩ := p2
          simp only [h2, Option.some.injEq, Prod.mk.injEq] at h
          have e1 := (decodeStr_suffix h1).1
          have e2 := (decodeStr_suffix h2).1
          have hr : r = r2 := h.2.symm
          subst hr
          simp only [List.length_cons]
          omega
    | 1, h =>
      simp only [decodeOne] at h
      cases h1 : decodeStr rest with
      | none => simp only [h1] at h; exact Option.noConfusion h
      | some p1 =>
        obtain ⟨k1, r1⟩ := p1
        simp only [h1, Option.some.injEq, Prod.mk.injEq] at h
        have e1 := (decodeStr_suffix h1).1
        have hr : r = r1 := h.2.symm
        subst hr
        simp only [List.length_cons]
        omega
    | n + 2, h => simp [decodeOne] at h

/-- `load_log` (kvs.rs lines 334-369): replay one segment's byte stream,
updating the index and returning the stale-byte count of this segment.
`none` models a deserialization error on malformed trailing bytes. -/
def loadLoop (gen : Nat) (bs : List Nat) (pos : Nat)
    (idx : List (String × CommandPos)) (stale : Nat) :
    Option (List (String × CommandPos) × Nat) :=
  match h : decodeOne bs with
  | none => if bs.isEmpty then some (idx, stale) else none
  | some (c, r) =>
    let consumed := bs.length - r.length
    match c with
    | .Set k _ =>
      let ins := alInsert strLt idx k ⟨gen, pos, consumed⟩
      loadLoop gen r (pos + consumed) ins.1
        (stale + (match ins.2 with | some old => old.len | none => 0))
    | .Remove k =>
      let rem := alRemove idx k
      loadLoop gen r (pos + consumed) rem.1
        (stale + (match rem.2 with | some old => old.len | none => 0) + consumed)
termination_by bs.length
decreasing_by
  all_goals exact decodeOne_length_lt h

/-- `load_log` proper: replay from position 0. -/
def load_log (gen : Nat) (file : List Nat)
    (idx : List (String × CommandPos)) :
    Option (List (String × CommandPos) × Nat) :=
  loadLoop gen file 0 idx 0

/-- The replay phase of `open` (kvs.rs lines 68-73): fold `load_log` over
the segments in ascending generation order, accumulating stale bytes. -/
def loadAll : List (Nat × List Nat) → List (String × CommandPos) →
    Option (List (String × CommandPos) × Nat)
  | [], idx => some (idx, 0)
  | (gen, file) :: rest, idx =>
    match load_log gen file idx with
    | none => none
    | some (idx', st) =>
      match loadAll rest idx' with
      | none => none
      | some (idx'', st') => some (idx'', st + st')

/-- Insertion sort of directory entries by generation (models
`sorted_gen_list`, kvs.rs lines 313-329: filenames are unique, so sorting
the `(gen, contents)` pairs by gen equals sorting the parsed gen list). -/
def sortInsert (p : Nat × List Nat) : List (Nat × List Nat) → List (Nat × List Nat)
  | [] => [p]
  | q :: rest => if natLt p.1 q.1 || (p.1 = q.1 : Bool) then p :: q :: rest
                 else q :: sortInsert p rest

def sorted_gen_list : List (Nat × List Nat) → List (Nat × List Nat)
  | [] => []
  | p :: rest => sortInsert p (sorted_gen_list rest)

/-- `KvStore::open` (kvs.rs lines 57-86).  The argument is the directory
contents: generation number → file bytes. -/
def KvStore.openStore (disk : List (Nat × List Nat)) : Except KvsError KvStore :=
  let sorted := sorted_gen_list disk
  match loadAll sorted [] with
  | none => .error .SerializationFailure
  | some (index, stale_bytes) =>
    let current_gen := ((sorted.map Prod.fst).getLast?.getD 0) + 1
    let segs := new_log_file sorted current_gen
    .ok { segs := segs, index := index, current_gen := current_gen,
          stale_bytes := stale_bytes }

/-- Read and decode the byte range of a `CommandPos` (seek + `take(len)`
+ `serde_json::from_reader`). -/
def readAt (segs : List (Nat × List Nat)) (cp : CommandPos) :
    Option (List Nat) :=
  match alLookup segs cp.gen with
  | none => none
  | some file => some ((file.drop cp.pos).take cp.len)

/-- `KvsEngine::get` for `KvStore` (kvs.rs lines 179-197). -/
def KvStore.get (s : KvStore) (key : String) : Except KvsError (Option String) :=
  match alLookup s.index key with
  | none => .ok none
  | some cp =>
    match alLookup s.segs cp.gen with
    | none => .error .PanicNoReader
    | some file =>
      match decodeCmd ((file.drop cp.pos).take cp.len) with
      | some (.Set _ value) => .ok (some value)
      | some (.Remove _) => .error .UnexpectedCommandType
      | none => .error .SerializationFailure

/-- The body of `KvStore::compact`'s rewrite loop (kvs.rs lines 98-111):
copy each index entry's raw bytes into the compaction segment, updating
the entry to `{compaction_gen, new_pos, len}`. -/
def compactLoop (segs : List (Nat × List Nat)) (cgen : Nat) :
    List (String × CommandPos) → Nat → List Nat →
    Except KvsError (List (String × CommandPos) × List Nat)
  | [], _, acc => .ok ([], acc)
  | (k, cp) :: rest, new_pos, acc =>
    match alLookup segs cp.gen with
    | none => .error .PanicNoReader
    | some file =>
      let bytes := (file.drop cp.pos).take cp.len
      let len := bytes.length
      match compactLoop segs cgen rest (new_pos + len) (acc ++ bytes) with
      | .ok (rest', acc') => .ok ((k, ⟨cgen, new_pos, len⟩) :: rest', acc')
      | .error e => .error e

/-- `KvStore::compact` (kvs.rs lines 90-132). -/
def KvStore.compact (s : KvStore) : Except KvsError KvStore :=
  let compaction_gen := s.current_gen + 1
  let current_gen := s.current_gen + 2
  let segs1 := new_log_file s.segs current_gen
  let segs2 := new_log_file segs1 compaction_gen
  match compactLoop segs2 compaction_gen s.index 0 [] with
  | .error e => .error e
  | .ok (index, target) =>
    let segs3 := segWrite segs2 compaction_gen target
    let segs4 := segs3.filter (fun p => ! natLt p.1 compaction_gen)
    .ok { segs := segs4, index := index, current_gen := current_gen,
          stale_bytes := 0 }

/-- The state built by `set` just before its compaction check
(kvs.rs lines 149-165): append + flush the record, then update the index
and the stale counter. -/
def KvStore.setMid (s : KvStore) (key value : String) : KvStore :=
  let cmd := Command.Set key value
  let pos := ((alLookup s.segs s.current_gen).getD []).length
  let segs := segAppend s.segs s.current_gen (encodeCmd cmd)
  let len := (encodeCmd cmd).length
  let ins := alInsert strLt s.index key ⟨s.current_gen, pos, len⟩
  let stale := s.stale_bytes +
    (match ins.2 with | some old => old.len | none => 0)
  { segs := segs, index := ins.1,
    current_gen := s.current_gen, stale_bytes := stale }

/-- `KvsEngine::set` for `KvStore` (kvs.rs lines 149-171). -/
def KvStore.set (s : KvStore) (key value : String) : Except KvsError KvStore :=
  let s' := s.setMid key value
  if COMPACTION_THRESHOLD < s'.stale_bytes then s'.compact else .ok s'

/-- `KvsEngine::remove` for `KvStore` (kvs.rs lines 204-223). -/
def KvStore.remove (s : KvStore) (key : String) : Except KvsError KvStore :=
  if (alLookup s.index key).isSome then
    let cmd := Command.Remove key
    let segs := segAppend s.segs s.current_gen (encodeCmd cmd)
    let rem := alRemove s.index key
    let stale := s.stale_bytes +
      (match rem.2 with | some old => old.len | none => 0)
    .ok { segs := segs, index := rem.1,
          current_gen := s.current_gen, stale_bytes := stale }
  else
    .error .KeyNotFound

/-! ### Auxiliary lemmas on lookups, slices and decoding -/

theorem alLookup_append_left {κ α : Type} [DecidableEq κ]
    {l1 : List (κ × α)} {k : κ} {v : α} (l2 : List (κ × α))
    (h : alLookup l1 k = some v) : alLookup (l1 ++ l2) k = some v := by
  induction l1 with
  | nil => simp [alLookup] at h
  | cons p rest ih =>
    simp only [alLookup, List.cons_append] at h ⊢
    by_cases he : k = p.1
    · rw [if_pos he] at h ⊢; exact h
    · rw [if_neg he] at h ⊢; exact ih h

theorem alLookup_append_right {κ α : Type} [DecidableEq κ]
    {l1 : List (κ × α)} {k : κ} (l2 : List (κ × α))
    (h : ∀ p ∈ l1, p.1 ≠ k) : alLookup (l1 ++ l2) k = alLookup l2 k := by
  induction l1 with
  | nil => rfl
  | cons p rest ih =>
    simp only [alLookup, List.cons_append]
    rw [if_neg (fun he => (h p (by simp)) he.symm)]
    exact ih (fun q hq => h q (by simp [hq]))

theorem slice_append {l1 l2 : List Nat} {p n : Nat} (h : p + n ≤ l1.length) :
    ((l1 ++ l2).drop p).take n = (l1.drop p).take n := by
  rw [List.drop_append_of_le_length (by omega)]
  rw [List.take_append_of_le_length (by simp; omega)]

theorem decodeOne_take {bs r : List Nat} {c : Command}
    (h : decodeOne bs = some (c, r)) :
    bs.take (bs.length - r.length) ++ r = bs ∧
      decodeOne (bs.take (bs.length - r.length)) = some (c, []) := by
  rcases bs with _ | ⟨b, rest⟩
  · simp [decodeOne] at h
  · match b, h with
    | 0, h =>
      simp only [decodeOne] at h
      cases h1 : decodeStr rest with
      | none => simp only [h1] at h; exact Option.noConfusion h
      | some p1 =>
        obtain ⟨k1, r1⟩ := p1
        simp only [h1] at h
        cases h2 : decodeStr r1 with
        | none => simp only [h2] at h; exact Option.noConfusion h
        | some p2 =>
          obtain ⟨v2, r2⟩ := p2
          simp only [h2, Option.some.injEq, Prod.mk.injEq] at h
          obtain ⟨hc, hr⟩ := h
          subst hc
          subst hr
          obtain ⟨hl1, he1, hd1⟩ := decodeStr_suffix h1
          obtain ⟨hl2, he2, hd2⟩ := decodeStr_suffix h2
          set a1 := rest.take (rest.length - r1.length) with ha1
          set a2 := r1.take (r1.length - r2.length) with ha2
          have hrest : rest = a1 ++ (a2 ++ r2) := by
            rw [← he2] at he1; exact he1.symm
          have hlen : (0 :: rest).length - r2.length = 1 + a1.length + a2.length := by
            simp only [List.length_cons, hrest, List.length_append]
            omega
          have htake : (0 :: rest).take ((0 :: rest).length - r2.length) =
              0 :: (a1 ++ a2) := by
            rw [hlen]
            have : (1 + a1.length + a2.length) = (a1.length + a2.length) + 1 := by omega
            rw [this, List.take_succ_cons]
            congr 1
            rw [hrest, ← List.append_assoc]
            rw [List.take_append_of_le_length (by simp)]
            simp
          constructor
          · rw [htake, hrest]; simp
          · rw [htake]
            simp only [decodeOne]
            have hda1 : decodeStr (a1 ++ a2) = some (k1, a2) := by
              have := decodeStr_append (t := a2) hd1
              simpa using this
            simp only [hda1, hd2]
    | 1, h =>
      simp only [decodeOne] at h
      cases h1 : decodeStr rest with
      | none => simp only [h1] at h; exact Option.noConfusion h
      | some p1 =>
        obtain ⟨k1, r1⟩ := p1
        simp only [h1, Option.some.injEq, Prod.mk.injEq] at h
        obtain ⟨hc, hr⟩ := h
        subst hc
        subst hr
        obtain ⟨hl1, he1, hd1⟩ := decodeStr_suffix h1
        set a1 := rest.take (rest.length - r1.length) with ha1
        have hlen : (1 :: rest).length - r1.length = a1.length + 1 := by
          simp only [List.length_cons, ha1, List.length_take]
          omega
        have htake : (1 :: rest).take ((1 :: rest).length - r1.length) = 1 :: a1 := by
          rw [hlen, List.take_succ_cons]
          congr 1
          have hl : a1.length = rest.length - r1.length := by
            rw [ha1, List.length_take]; omega
          rw [hl, ← ha1]
        constructor
        · rw [htake]
          simp only [List.cons_append, he1]
        · rw [htake]
          simp only [decodeOne]
          rw [hd1]
    | n + 2, h => simp [decodeOne] at h

theorem decodeCmd_of_decodeOne {bs r : List Nat} {c : Command}
    (h : decodeOne bs = some (c, r)) :
    decodeCmd (bs.take (bs.length - r.length)) = some c := by
  rw [decodeCmd, (decodeOne_take h).2]

theorem decodeCmd_encodeCmd (c : Command) :
    decodeCmd (encodeCmd c) = some c := by
  rw [decodeCmd]
  have := decodeOne_encodeCmd c []
  rw [List.append_nil] at this
  rw [this]

theorem decodeOne_of_decodeCmd {bs : List Nat} {c : Command}
    (h : decodeCmd bs = some c) (t : List Nat) :
    decodeOne (bs ++ t) = some (c, t) := by
  rw [decodeCmd] at h
  cases h0 : decodeOne bs with
  | none => rw [h0] at h; exact Option.noConfusion h
  | some p =>
    obtain ⟨c', r⟩ := p
    rw [h0] at h
    cases r with
    | nil =>
      simp only [Option.some.injEq] at h
      subst h
      have := decodeOne_append (t := t) h0
      simpa using this
    | cons x xs => simp at h

/-! ### Replay lemmas -/

theorem loadLoop_nil (gen pos : Nat) (idx : List (String × CommandPos)) (st : Nat) :
    loadLoop gen [] pos idx st = some (idx, st) := by
  rw [loadLoop.eq_def]
  simp [decodeOne]

theorem loadLoop_set {bs r : List Nat} {k v : String}
    (h : decodeOne bs = some (.Set k v, r)) (gen pos : Nat)
    (idx : List (String × CommandPos)) (st : Nat) :
    loadLoop gen bs pos idx st =
      loadLoop gen r (pos + (bs.length - r.length))
        (alInsert strLt idx k ⟨gen, pos, bs.length - r.length⟩).1
        (st + (match (alInsert strLt idx k ⟨gen, pos, bs.length - r.length⟩).2 with
               | some old => old.len | none => 0)) := by
  rw [loadLoop.eq_def]
  split
  · next hemp => rw [hemp] at h; exact Option.noConfusion h
  · next c' r' hemp =>
    rw [hemp] at h
    injection h with h1
    injection h1 with hc hr
    subst hc
    subst hr
    rfl

theorem loadLoop_rm {bs r : List Nat} {k : String}
    (h : decodeOne bs = some (.Remove k, r)) (gen pos : Nat)
    (idx : List (String × CommandPos)) (st : Nat) :
    loadLoop gen bs pos idx st =
      loadLoop gen r (pos + (bs.length - r.length)) (alRemove idx k).1
        (st + (match (alRemove idx k).2 with | some old => old.len | none => 0)
           + (bs.length - r.length)) := by
  rw [loadLoop.eq_def]
  split
  · next hemp => rw [hemp] at h; exact Option.noConfusion h
  · next c' r' hemp =>
    rw [hemp] at h
    injection h with h1
    injection h1 with hc hr
    subst hc
    subst hr
    rfl

theorem loadLoop_undecodable {gen : Nat} {bs : List Nat} {pos : Nat}
    {idx : List (String × CommandPos)} {st : Nat}
    (hdec : decodeOne bs = none) (hne : bs.isEmpty = false) :
    loadLoop gen bs pos idx st = none := by
  rw [loadLoop.eq_def]
  split
  · rw [hne]; simp
  · next c' r' hemp => rw [hemp] at hdec; exact Option.noConfusion hdec

theorem loadLoop_append {gen : Nat} {bs : List Nat} {pos : Nat}
    {idx : List (String × CommandPos)} {st : Nat} :
    ∀ {idx1 : List (String × CommandPos)} {st1 : Nat},
      loadLoop gen bs pos idx st = some (idx1, st1) → ∀ t : List Nat,
        loadLoop gen (bs ++ t) pos idx st =
          loadLoop gen t (pos + bs.length) idx1 st1 := by
  induction bs, pos, idx, st using loadLoop.induct gen with
  | case1 =>
    rename_i bs pos idx st hdec hemp
    intro idx1 st1 h t
    have hnil : bs = [] := List.isEmpty_iff.mp hemp
    subst hnil
    rw [loadLoop_nil] at h
    injection h with h1
    injection h1 with hi hs
    subst hi
    subst hs
    simp
  | case2 =>
    rename_i bs pos idx st hdec hemp
    intro idx1 st1 h t
    rw [loadLoop_undecodable hdec (Bool.not_eq_true _ ▸ hemp)] at h
    exact Option.noConfusion h
  | case3 =>
    rename_i bs pos idx st r consumed k v hdec ins hdec2 ih
    intro idx1 st1 h t
    rw [loadLoop_set hdec] at h
    have hlt := decodeOne_length_lt hdec
    have hconsum : (bs ++ t).length - (r ++ t).length = bs.length - r.length := by
      simp only [List.length_append]; omega
    rw [loadLoop_set (decodeOne_append hdec)]
    rw [hconsum]
    rw [ih h (t := t)]
    have harith : pos + (bs.length - r.length) + r.length = pos + bs.length := by
      omega
    rw [harith]
  | case4 =>
    rename_i bs pos idx st r consumed k hdec rem hdec2 ih
    intro idx1 st1 h t
    rw [loadLoop_rm hdec] at h
    have hlt := decodeOne_length_lt hdec
    have hconsum : (bs ++ t).length - (r ++ t).length = bs.length - r.length := by
      simp only [List.length_append]; omega
    rw [loadLoop_rm (decodeOne_append hdec)]
    rw [hconsum]
    rw [ih h (t := t)]
    have harith : pos + (bs.length - r.length) + r.length = pos + bs.length := by
      omega
    rw [harith]

theorem loadAll_append {l1 : List (Nat × List Nat)}
    {idx i1 : List (String × CommandPos)} {st1 : Nat}
    (h : loadAll l1 idx = some (i1, st1)) (l2 : List (Nat × List Nat)) :
    loadAll (l1 ++ l2) idx =
      (loadAll l2 i1).map (fun p => (p.1, st1 + p.2)) := by
  induction l1 generalizing idx st1 i1 with
  | nil =>
    simp only [loadAll, Option.some.injEq, Prod.mk.injEq] at h
    obtain ⟨hi, hs⟩ := h
    subst hi
    subst hs
    simp only [List.nil_append]
    cases hc : loadAll l2 idx with
    | none => rfl
    | some p => cases p; simp
  | cons q l1 ih =>
    obtain ⟨gen, f⟩ := q
    simp only [loadAll, List.cons_append] at h ⊢
    cases h0 : load_log gen f idx with
    | none => simp only [h0] at h; exact Option.noConfusion h
    | some p0 =>
      obtain ⟨idx', st⟩ := p0
      simp only [h0] at h ⊢
      cases h1 : loadAll l1 idx' with
      | none => simp only [h1] at h; exact Option.noConfusion h
      | some p1 =>
        obtain ⟨i', st'⟩ := p1
        simp only [h1, Option.some.injEq, Prod.mk.injEq] at h
        obtain ⟨hi, hs⟩ := h
        subst hi
        subst hs
        simp only [List.append_eq]
        rw [ih h1]
        cases hc : loadAll l2 i' with
        | none => simp
        | some p => cases p; simp; omega

/-! ### The store invariant -/

/-- A `CommandPos` entry is live in `file`: in bounds, and its byte range
decodes to a `Set` of exactly the entry's key. -/
def entryLiveFile (file : List Nat) (p : String × CommandPos) : Bool :=
  decide (p.2.pos + p.2.len ≤ file.length) &&
  (match decodeCmd ((file.drop p.2.pos).take p.2.len) with
   | some (.Set k _) => decide (k = p.1)
   | _ => false)

/-- A `CommandPos` entry is live in the segment table. -/
def entryLiveB (segs : List (Nat × List Nat)) (p : String × CommandPos) : Bool :=
  match alLookup segs p.2.gen with
  | none => false
  | some file => entryLiveFile file p

/-- Executable well-formedness of a store state. -/
def InvB (s : KvStore) : Bool :=
  decide (alSorted natLt s.segs) &&
  s.segs.all (fun p => decide (p.1 ≤ s.current_gen)) &&
  (alLookup s.segs s.current_gen).isSome &&
  decide ((loadAll s.segs []).map Prod.fst = some s.index) &&
  decide (alSorted strLt s.index) &&
  s.index.all (entryLiveB s.segs)

/-- The store invariant, as a conjunction of named facts:
segments sorted by generation; every generation at most the active one;
the active segment is open; replaying all segments rebuilds exactly the
in-memory index; the index is sorted by key; and every index entry
points at an in-bounds `Set` record of its own key. -/
structure Inv (s : KvStore) : Prop where
  ssort : alSorted natLt s.segs
  genLe : ∀ p ∈ s.segs, p.1 ≤ s.current_gen
  curMem : (alLookup s.segs s.current_gen).isSome = true
  replay : (loadAll s.segs []).map Prod.fst = some s.index
  isort : alSorted strLt s.index
  live : ∀ p ∈ s.index, entryLiveB s.segs p = true

theorem Inv_of_InvB {s : KvStore} (h : InvB s = true) : Inv s := by
  simp only [InvB, Bool.and_eq_true, decide_eq_true_eq, List.all_eq_true,
    Option.isSome_iff_exists] at h
  obtain ⟨⟨⟨⟨⟨h1, h2⟩, h3⟩, h4⟩, h5⟩, h6⟩ := h
  exact ⟨h1, fun p hp => h2 p hp, by
    obtain ⟨f, hf⟩ := h3; rw [hf]; rfl, h4, h5, fun p hp => h6 p hp⟩

/-! ### Segment-table decomposition lemmas -/

theorem segs_decomp {segs : List (Nat × List Nat)} {cg : Nat}
    (hs : alSorted natLt segs) (hle : ∀ p ∈ segs, p.1 ≤ cg)
    (hmem : (alLookup segs cg).isSome = true) :
    ∃ pre file, segs = pre ++ [(cg, file)] ∧ (∀ p ∈ pre, p.1 < cg) ∧
      alLookup segs cg = some file := by
  induction segs with
  | nil => simp [alLookup] at hmem
  | cons p rest ih =>
    obtain ⟨g0, f0⟩ := p
    by_cases he : cg = g0
    · cases rest with
      | nil =>
        refine ⟨[], f0, ?_, by simp, ?_⟩
        · simp [he]
        · simp [alLookup, he]
      | cons q rest' =>
        exfalso
        have hq : natLt g0 q.1 = true :=
          (List.pairwise_cons.mp hs).1 q (by simp)
        have hqle : q.1 ≤ cg := hle q (by simp)
        simp only [natLt, decide_eq_true_eq] at hq
        omega
    · have hmem' : (alLookup rest cg).isSome = true := by
        simp only [alLookup] at hmem
        rw [if_neg he] at hmem
        exact hmem
      obtain ⟨pre', file, hsplit, hpre, hlook⟩ :=
        ih (List.pairwise_cons.mp hs).2 (fun q hq => hle q (by simp [hq])) hmem'
      refine ⟨(g0, f0) :: pre', file, by simp [hsplit], ?_, ?_⟩
      · intro q hq
        rcases List.mem_cons.mp hq with h | h
        · subst h
          have := hle (g0, f0) (by simp)
          simp only at this ⊢
          omega
        · exact hpre q h
      · simp only [alLookup]
        rw [if_neg he]
        exact hlook

theorem segAppend_decomp {pre : List (Nat × List Nat)} {cg : Nat} {file : List Nat}
    (hpre : ∀ p ∈ pre, p.1 < cg) (bs : List Nat) :
    segAppend (pre ++ [(cg, file)]) cg bs = pre ++ [(cg, file ++ bs)] := by
  induction pre with
  | nil => simp [segAppend, natLt]
  | cons p rest ih =>
    obtain ⟨g', f'⟩ := p
    have hlt : g' < cg := hpre (g', f') (by simp)
    simp only [List.cons_append, segAppend, List.append_eq]
    rw [if_neg (by simp [natLt]; omega), if_neg (by omega)]
    rw [ih (fun q hq => hpre q (by simp [hq]))]

theorem alLookup_snoc_ne {pre : List (Nat × List Nat)} {cg g : Nat}
    {f : List Nat} (h : g ≠ cg) :
    alLookup (pre ++ [(cg, f)]) g = alLookup pre g := by
  induction pre with
  | nil => simp [alLookup, h]
  | cons p rest ih =>
    simp only [List.cons_append, alLookup]
    by_cases he : g = p.1
    · rw [if_pos he, if_pos he]
    · rw [if_neg he, if_neg he]
      exact ih

theorem alLookup_snoc_self {pre : List (Nat × List Nat)} {cg : Nat}
    {f : List Nat} (h : ∀ p ∈ pre, p.1 < cg) :
    alLookup (pre ++ [(cg, f)]) cg = some f := by
  rw [alLookup_append_right]
  · simp [alLookup]
  · intro p hp he
    have := h p hp
    omega

theorem new_log_file_big {segs : List (Nat × List Nat)} {g : Nat}
    (h : ∀ p ∈ segs, p.1 < g) : new_log_file segs g = segs ++ [(g, [])] := by
  induction segs with
  | nil => rfl
  | cons p rest ih =>
    obtain ⟨g', f'⟩ := p
    have hlt : g' < g := h (g', f') (by simp)
    simp only [new_log_file, List.cons_append, List.append_eq]
    rw [if_neg (by simp [natLt]; omega), if_neg (by omega)]
    rw [ih (fun q hq => h q (by simp [hq]))]

theorem new_log_file_mid {pre : List (Nat × List Nat)} {g g' : Nat} {f : List Nat}
    (h : ∀ p ∈ pre, p.1 < g) (hgg : g < g') :
    new_log_file (pre ++ [(g', f)]) g = pre ++ [(g, []), (g', f)] := by
  induction pre with
  | nil =>
    simp only [List.nil_append, new_log_file]
    rw [if_pos (by simp [natLt]; omega)]
  | cons p rest ih =>
    obtain ⟨g0, f0⟩ := p
    have hlt : g0 < g := h (g0, f0) (by simp)
    simp only [List.cons_append, new_log_file, List.append_eq]
    rw [if_neg (by simp [natLt]; omega), if_neg (by omega)]
    rw [ih (fun q hq => h q (by simp [hq]))]

theorem segWrite_snoc2 {pre : List (Nat × List Nat)} {g g' : Nat}
    {f0 f' : List Nat} (h : ∀ p ∈ pre, p.1 < g) (hgg : g < g') (bs : List Nat) :
    segWrite (pre ++ [(g, f0), (g', f')]) g bs = pre ++ [(g, bs), (g', f')] := by
  induction pre with
  | nil =>
    simp only [List.nil_append, segWrite]
    rw [if_neg (by simp [natLt])]
    simp
  | cons p rest ih =>
    obtain ⟨g0, fx⟩ := p
    have hlt : g0 < g := h (g0, fx) (by simp)
    simp only [List.cons_append, segWrite, List.append_eq]
    rw [if_neg (by simp [natLt]; omega), if_neg (by omega)]
    rw [ih (fun q hq => h q (by simp [hq]))]

/-! ### More auxiliary lemmas -/

theorem alSorted_iff_keys {κ α : Type} {lt : κ → κ → Bool}
    {l : List (κ × α)} :
    alSorted lt l ↔ List.Pairwise (fun a b => lt a b = true) (l.map Prod.fst) := by
  rw [alSorted, List.pairwise_map]

theorem alSorted_congr {κ α : Type} {lt : κ → κ → Bool}
    {l l' : List (κ × α)} (hk : l.map Prod.fst = l'.map Prod.fst)
    (h : alSorted lt l) : alSorted lt l' := by
  rw [alSorted_iff_keys] at h ⊢
  rw [← hk]
  exact h

theorem loadAll_split {l1 l2 : List (Nat × List Nat)}
    {idx i : List (String × CommandPos)} {st : Nat}
    (h : loadAll (l1 ++ l2) idx = some (i, st)) :
    ∃ i1 st1 st2, loadAll l1 idx = some (i1, st1) ∧
      loadAll l2 i1 = some (i, st2) ∧ st = st1 + st2 := by
  induction l1 generalizing idx st with
  | nil =>
    exact ⟨idx, 0, st, rfl, h, by omega⟩
  | cons q l1 ih =>
    obtain ⟨gen, f⟩ := q
    simp only [List.cons_append, loadAll] at h ⊢
    cases h0 : load_log gen f idx with
    | none => simp only [h0] at h; exact Option.noConfusion h
    | some p0 =>
      obtain ⟨idx', st'⟩ := p0
      simp only [h0] at h
      split at h
      · exact Option.noConfusion h
      · next i'' st'' h1 =>
        simp only [Option.some.injEq, Prod.mk.injEq] at h
        obtain ⟨hi, hs⟩ := h
        subst hi
        obtain ⟨i1, s1, s2, ha, hb, hc⟩ := ih h1
        refine ⟨i1, st' + s1, s2, ?_, hb, by omega⟩
        simp only [h0, ha]

theorem alLookup_mem {κ α : Type} [DecidableEq κ]
    {l : List (κ × α)} {k : κ} {v : α} (h : alLookup l k = some v) :
    (k, v) ∈ l := by
  induction l with
  | nil => simp [alLookup] at h
  | cons p rest ih =>
    simp only [alLookup] at h
    by_cases he : k = p.1
    · rw [if_pos he] at h
      injection h with h1
      subst he
      subst h1
      simp
    · rw [if_neg he] at h
      exact List.mem_cons_of_mem p (ih h)

/-- Appending to the last (active) segment preserves reads of in-bounds
ranges in every segment. -/
theorem read_extend {pre : List (Nat × List Nat)} {cg : Nat}
    {file : List Nat} (enc : List Nat) (hpre : ∀ q ∈ pre, q.1 < cg) {cp : CommandPos}
    {f0 : List Nat} (hl : alLookup (pre ++ [(cg, file)]) cp.gen = some f0)
    (hb : cp.pos + cp.len ≤ f0.length) :
    ∃ f1, alLookup (pre ++ [(cg, file ++ enc)]) cp.gen = some f1 ∧
      (f1.drop cp.pos).take cp.len = (f0.drop cp.pos).take cp.len ∧
      f0.length ≤ f1.length := by
  by_cases he : cp.gen = cg
  · have h0 : f0 = file := by
      rw [he, alLookup_snoc_self hpre] at hl
      injection hl with h1
      exact h1.symm
    subst h0
    refine ⟨f0 ++ enc, ?_, ?_, by simp⟩
    · rw [he, alLookup_snoc_self hpre]
    · exact slice_append hb
  · refine ⟨f0, ?_, rfl, le_refl _⟩
    rw [alLookup_snoc_ne he] at hl ⊢
    exact hl

theorem entryLive_extend {pre : List (Nat × List Nat)} {cg : Nat}
    {file enc : List Nat} (hpre : ∀ q ∈ pre, q.1 < cg)
    {p : String × CommandPos}
    (h : entryLiveB (pre ++ [(cg, file)]) p = true) :
    entryLiveB (pre ++ [(cg, file ++ enc)]) p = true := by
  simp only [entryLiveB] at h
  cases hl : alLookup (pre ++ [(cg, file)]) p.2.gen with
  | none => rw [hl] at h; exact Bool.noConfusion h
  | some f0 =>
    rw [hl] at h
    simp only [entryLiveFile, Bool.and_eq_true, decide_eq_true_eq] at h
    obtain ⟨hb, hdec⟩ := h
    obtain ⟨f1, hl1, hslice, hlen⟩ := read_extend enc hpre hl hb
    simp only [entryLiveB, hl1, entryLiveFile, Bool.and_eq_true,
      decide_eq_true_eq]
    exact ⟨by omega, by rw [hslice]; exact hdec⟩

theorem loadAll_single (g : Nat) (f : List Nat)
    (idx : List (String × CommandPos)) :
    loadAll [(g, f)] idx = load_log g f idx := by
  cases h : load_log g f idx with
  | none => simp [loadAll, h]
  | some p => cases p; simp [loadAll, h]

theorem load_log_snoc_set {gen : Nat} {file : List Nat}
    {idx idx1 : List (String × CommandPos)} {st1 : Nat}
    (h : load_log gen file idx = some (idx1, st1)) (k v : String) :
    ∃ st2, load_log gen (file ++ encodeCmd (.Set k v)) idx =
      some ((alInsert strLt idx1 k
        ⟨gen, file.length, (encodeCmd (.Set k v)).length⟩).1, st2) := by
  rw [load_log] at h ⊢
  rw [loadLoop_append h]
  have hdec : decodeOne (encodeCmd (.Set k v)) = some (.Set k v, []) := by
    have := decodeOne_encodeCmd (.Set k v) []
    rwa [List.append_nil] at this
  rw [loadLoop_set hdec]
  simp only [List.length_nil, Nat.sub_zero, Nat.zero_add]
  rw [loadLoop_nil]
  exact ⟨_, rfl⟩

theorem load_log_snoc_rm {gen : Nat} {file : List Nat}
    {idx idx1 : List (String × CommandPos)} {st1 : Nat}
    (h : load_log gen file idx = some (idx1, st1)) (k : String) :
    ∃ st2, load_log gen (file ++ encodeCmd (.Remove k)) idx =
      some ((alRemove idx1 k).1, st2) := by
  rw [load_log] at h ⊢
  rw [loadLoop_append h]
  have hdec : decodeOne (encodeCmd (.Remove k)) = some (.Remove k, []) := by
    have := decodeOne_encodeCmd (.Remove k) []
    rwa [List.append_nil] at this
  rw [loadLoop_rm hdec]
  simp only [List.length_nil, Nat.sub_zero, Nat.zero_add]
  rw [loadLoop_nil]
  exact ⟨_, rfl⟩

/-- Extract the successful replay of the current state from the invariant. -/
theorem replay_parts {s : KvStore} (hinv : Inv s)
    {pre : List (Nat × List Nat)} {file : List Nat}
    (hsegs : s.segs = pre ++ [(s.current_gen, file)]) :
    ∃ i1 stP stL, loadAll pre [] = some (i1, stP) ∧
      load_log s.current_gen file i1 = some (s.index, stL) := by
  have hrep := hinv.replay
  cases hld : loadAll s.segs [] with
  | none => rw [hld] at hrep; exact Option.noConfusion hrep
  | some p =>
    obtain ⟨i0, st0⟩ := p
    rw [hld] at hrep
    have hi0 : i0 = s.index := by simpa using hrep
    subst hi0
    rw [hsegs] at hld
    obtain ⟨i1, st1', st2', hA, hB, _⟩ := loadAll_split hld
    rw [loadAll_single] at hB
    exact ⟨i1, st1', st2', hA, hB⟩

/-- `get` is unchanged by appending to the active segment, for any key
whose index entry has not changed. -/
theorem get_extend {s : KvStore} (hinv : Inv s)
    {pre : List (Nat × List Nat)} {file : List Nat} (enc : List Nat)
    (hsegs : s.segs = pre ++ [(s.current_gen, file)])
    (hpre : ∀ q ∈ pre, q.1 < s.current_gen)
    {idx' : List (String × CommandPos)} {k' : String}
    (hk : alLookup idx' k' = alLookup s.index k') (cg2 st2 : Nat) :
    KvStore.get { segs := pre ++ [(s.current_gen, file ++ enc)], index := idx',
                  current_gen := cg2, stale_bytes := st2 } k' = s.get k' := by
  simp only [KvStore.get, hk]
  cases hcp : alLookup s.index k' with
  | none => rfl
  | some cp =>
    have hmem := alLookup_mem hcp
    have hlive := hinv.live (k', cp) hmem
    simp only [entryLiveB] at hlive
    cases hl0 : alLookup s.segs cp.gen with
    | none => rw [hl0] at hlive; exact Bool.noConfusion hlive
    | some f0 =>
      rw [hl0] at hlive
      simp only [entryLiveFile, Bool.and_eq_true, decide_eq_true_eq] at hlive
      obtain ⟨hb, hdec⟩ := hlive
      have hl' : alLookup (pre ++ [(s.current_gen, file)]) cp.gen = some f0 := by
        rw [← hsegs]; exact hl0
      obtain ⟨f1, hl1, hslice, hlen⟩ := read_extend enc hpre hl' hb
      simp only [hl1, hl0, hslice]

/-! ### `set` (before compaction check) and `remove` -/

theorem setMid_spec {s : KvStore} (hinv : Inv s) (k v : String) :
    Inv (s.setMid k v) ∧
    (s.setMid k v).current_gen = s.current_gen ∧
    (s.setMid k v).stale_bytes = s.stale_bytes +
      (match alLookup s.index k with | some old => old.len | none => 0) ∧
    (s.setMid k v).get k = .ok (some v) ∧
    (∀ k', k' ≠ k → (s.setMid k v).get k' = s.get k') := by
  obtain ⟨pre, file, hsegs, hpre, hlook⟩ :=
    segs_decomp hinv.ssort hinv.genLe hinv.curMem
  have hpos : ((alLookup s.segs s.current_gen).getD []).length = file.length := by
    rw [hlook]; rfl
  have hmid : s.setMid k v =
      { segs := pre ++ [(s.current_gen, file ++ encodeCmd (.Set k v))],
        index := (alInsert strLt s.index k
          ⟨s.current_gen, file.length, (encodeCmd (.Set k v)).length⟩).1,
        current_gen := s.current_gen,
        stale_bytes := s.stale_bytes +
          (match (alInsert strLt s.index k
            ⟨s.current_gen, file.length, (encodeCmd (.Set k v)).length⟩).2 with
           | some old => old.len | none => 0) } := by
    simp only [KvStore.setMid, hpos]
    rw [hsegs, segAppend_decomp hpre]
  have hins2 : (alInsert strLt s.index k
      ⟨s.current_gen, file.length, (encodeCmd (.Set k v)).length⟩).2 =
      alLookup s.index k :=
    alInsert_snd strLt_irrefl strLt_trans hinv.isort k _
  refine ⟨?_, by rw [hmid], by rw [hmid]; simp only [hins2], ?_, ?_⟩
  · rw [hmid]
    refine ⟨?_, ?_, ?_, ?_, ?_, ?_⟩
    · exact alSorted_congr (by simp) (hsegs ▸ hinv.ssort)
    · intro p hp
      rcases List.mem_append.mp hp with h | h
      · exact hinv.genLe p (hsegs ▸ List.mem_append_left _ h)
      · simp only [List.mem_singleton] at h
        subst h
        exact le_refl _
    · rw [alLookup_snoc_self hpre]; rfl
    · obtain ⟨i1, stP, stL, hA, hB⟩ := replay_parts hinv hsegs
      obtain ⟨st2, hC⟩ := load_log_snoc_set hB k v
      rw [loadAll_append hA, loadAll_single, hC]
      rfl
    · exact alInsert_sorted strLt_irrefl strLt_trans strLt_total hinv.isort k _
    · intro p hp
      rcases alInsert_mem p hp with h | h
      · subst h
        simp only [entryLiveB, alLookup_snoc_self hpre, entryLiveFile,
          List.drop_left, List.take_length, decodeCmd_encodeCmd,
          List.length_append, Bool.and_eq_true, decide_eq_true_eq]
        exact ⟨le_refl _, trivial⟩
      · have hl := hinv.live p h
        rw [hsegs] at hl
        exact entryLive_extend hpre hl
  · rw [hmid]
    simp only [KvStore.get, alInsert_lookup_self, alLookup_snoc_self hpre,
      List.drop_left, List.take_length, decodeCmd_encodeCmd]
  · intro k' hne
    rw [hmid]
    exact get_extend hinv (encodeCmd (.Set k v)) hsegs hpre
      (alInsert_lookup_ne s.index k _ hne) _ _

theorem remove_err {s : KvStore} {k : String}
    (h : (alLookup s.index k).isSome = false) :
    s.remove k = .error .KeyNotFound := by
  rw [KvStore.remove, if_neg (by rw [h]; simp)]

theorem remove_spec {s : KvStore} (hinv : Inv s) {k : String} {cp : CommandPos}
    (hcp : alLookup s.index k = some cp) :
    ∃ s', s.remove k = .ok s' ∧ Inv s' ∧
      s'.current_gen = s.current_gen ∧
      s'.stale_bytes = s.stale_bytes + cp.len ∧
      s'.index = (alRemove s.index k).1 ∧
      s'.segs.map Prod.fst = s.segs.map Prod.fst ∧
      s'.get k = .ok none ∧
      (∀ k', k' ≠ k → s'.get k' = s.get k') := by
  obtain ⟨pre, file, hsegs, hpre, hlook⟩ :=
    segs_decomp hinv.ssort hinv.genLe hinv.curMem
  have hrm2 : (alRemove s.index k).2 = some cp := by
    rw [alRemove_snd, hcp]
  have hrm : s.remove k = .ok
      { segs := pre ++ [(s.current_gen, file ++ encodeCmd (.Remove k))],
        index := (alRemove s.index k).1,
        current_gen := s.current_gen,
        stale_bytes := s.stale_bytes + cp.len } := by
    rw [KvStore.remove, if_pos (by rw [hcp]; rfl)]
    simp only [hrm2]
    rw [hsegs, segAppend_decomp hpre]
  refine ⟨_, hrm, ?_, rfl, rfl, rfl, by simp [hsegs], ?_, ?_⟩
  · refine ⟨?_, ?_, ?_, ?_, ?_, ?_⟩
    · exact alSorted_congr (by simp) (hsegs ▸ hinv.ssort)
    · intro p hp
      rcases List.mem_append.mp hp with h | h
      · exact hinv.genLe p (hsegs ▸ List.mem_append_left _ h)
      · simp only [List.mem_singleton] at h
        subst h
        exact le_refl _
    · rw [alLookup_snoc_self hpre]; rfl
    · obtain ⟨i1, stP, stL, hA, hB⟩ := replay_parts hinv hsegs
      obtain ⟨st2, hC⟩ := load_log_snoc_rm hB k
      rw [loadAll_append hA, loadAll_single, hC]
      rfl
    · exact alRemove_sorted hinv.isort k
    · intro p hp
      have h : p ∈ s.index := (alRemove_sublist s.index k).mem hp
      have hl := hinv.live p h
      rw [hsegs] at hl
      exact entryLive_extend hpre hl
  · simp only [KvStore.get,
      alRemove_lookup_self strLt_irrefl hinv.isort k]
  · intro k' hne
    exact get_extend hinv (encodeCmd (.Remove k)) hsegs hpre
      (alRemove_lookup_ne s.index k hne) _ _

theorem entryLive_destruct {segs : List (Nat × List Nat)}
    {p : String × CommandPos} (h : entryLiveB segs p = true) :
    ∃ file v, alLookup segs p.2.gen = some file ∧
      p.2.pos + p.2.len ≤ file.length ∧
      decodeCmd ((file.drop p.2.pos).take p.2.len) = some (.Set p.1 v) := by
  simp only [entryLiveB] at h
  cases hl : alLookup segs p.2.gen with
  | none => rw [hl] at h; exact Bool.noConfusion h
  | some file =>
    rw [hl] at h
    simp only [entryLiveFile, Bool.and_eq_true, decide_eq_true_eq] at h
    obtain ⟨hb, hdec⟩ := h
    cases hd : decodeCmd ((file.drop p.2.pos).take p.2.len) with
    | none => rw [hd] at hdec; exact Bool.noConfusion hdec
    | some c =>
      rw [hd] at hdec
      cases c with
      | Remove k0 => exact Bool.noConfusion hdec
      | Set k0 v0 =>
        simp only [decide_eq_true_eq] at hdec
        subst hdec
        exact ⟨file, v0, rfl, hb, hd⟩

theorem compactLoop_ok (segs : List (Nat × List Nat)) (cgen : Nat) :
    ∀ (idx : List (String × CommandPos)),
      (∀ p ∈ idx, entryLiveB segs p = true) →
      alSorted strLt idx →
      ∀ (acc : List Nat),
    ∃ idx' blob,
      compactLoop segs cgen idx acc.length acc = .ok (idx', acc ++ blob) ∧
      List.Forall₂ (fun p q => p.1 = q.1 ∧ q.2.gen = cgen ∧ q.2.len = p.2.len ∧
        q.2.pos + q.2.len ≤ (acc ++ blob).length ∧
        ∃ file, alLookup segs p.2.gen = some file ∧
          ((acc ++ blob).drop q.2.pos).take q.2.len =
            (file.drop p.2.pos).take p.2.len) idx idx' ∧
      (∀ (idx0 : List (String × CommandPos)) (st0 : Nat),
        (∀ p0 ∈ idx0, ∀ p ∈ idx, strLt p0.1 p.1 = true) →
        loadLoop cgen blob acc.length idx0 st0 = some (idx0 ++ idx', st0)) := by
  intro idx
  induction idx with
  | nil =>
    intro hidx hsort acc
    refine ⟨[], [], ?_, List.Forall₂.nil, ?_⟩
    · simp [compactLoop]
    · intro idx0 st0 hlt
      rw [loadLoop_nil]
      simp
  | cons p rest ih =>
    intro hidx hsort acc
    obtain ⟨k, cp⟩ := p
    obtain ⟨file, v, hl, hb, hdec⟩ := entryLive_destruct (hidx (k, cp) (by simp))
    simp only at hl hb hdec
    set bytes := (file.drop cp.pos).take cp.len with hbytes
    have hlenb : bytes.length = cp.len := by
      rw [hbytes]
      simp only [List.length_take, List.length_drop]
      omega
    have hsort' : alSorted strLt rest := (List.pairwise_cons.mp hsort).2
    have hhead : ∀ q ∈ rest, strLt k q.1 = true := by
      intro q hq
      exact (List.pairwise_cons.mp hsort).1 q hq
    obtain ⟨idx'', blob2, heq2, hrel2, hload2⟩ :=
      ih (fun q hq => hidx q (List.mem_cons_of_mem _ hq)) hsort' (acc ++ bytes)
    refine ⟨(k, ⟨cgen, acc.length, bytes.length⟩) :: idx'', bytes ++ blob2, ?_, ?_, ?_⟩
    · simp only [compactLoop, hl]
      have harg : acc.length + bytes.length = (acc ++ bytes).length := by simp
      rw [← hbytes, harg, heq2]
      simp [List.append_assoc]
    · refine List.Forall₂.cons ⟨rfl, rfl, hlenb, ?_, file, ?_, ?_⟩ ?_
      · simp
      · exact hl
      · have h1 : (acc ++ (bytes ++ blob2)).drop acc.length = bytes ++ blob2 :=
          List.drop_left acc (bytes ++ blob2)
        have h2 : (bytes ++ blob2).take bytes.length = bytes :=
          List.take_left bytes blob2
        simp only [h1, h2]
      · have hassoc : (acc ++ bytes) ++ blob2 = acc ++ (bytes ++ blob2) :=
          List.append_assoc acc bytes blob2
        rw [← hassoc]
        exact hrel2
    · intro idx0 st0 hlt
      have hdec1 : decodeOne (bytes ++ blob2) = some (.Set k v, blob2) :=
        decodeOne_of_decodeCmd hdec blob2
      rw [loadLoop_set hdec1]
      have hcons : (bytes ++ blob2).length - blob2.length = bytes.length := by
        simp
      rw [hcons]
      have hmax : ∀ p0 ∈ idx0, strLt p0.1 k = true := by
        intro p0 hp0
        exact hlt p0 hp0 (k, cp) (by simp)
      have harg : acc.length + bytes.length = (acc ++ bytes).length := by simp
      simp only [alInsert_append_max strLt_irrefl strLt_trans hmax,
        Nat.add_zero, harg]
      have hlt' : ∀ p0 ∈ idx0 ++ [(k, (⟨cgen, acc.length, bytes.length⟩ : CommandPos))],
          ∀ q ∈ rest, strLt p0.1 q.1 = true := by
        intro p0 hp0 q hq
        rcases List.mem_append.mp hp0 with h | h
        · exact hlt p0 h q (List.mem_cons_of_mem _ hq)
        · simp only [List.mem_singleton] at h
          subst h
          exact hhead q hq
      have hfin := hload2 (idx0 ++ [(k, ⟨cgen, acc.length, bytes.length⟩)]) st0 hlt'
      have hshape : idx0 ++ (k, (⟨cgen, acc.length, bytes.length⟩ : CommandPos)) :: idx'' =
          (idx0 ++ [(k, (⟨cgen, acc.length, bytes.length⟩ : CommandPos))]) ++ idx'' := by
        simp
      rw [hshape]
      exact hfin

theorem entryLiveB_append {segs tail : List (Nat × List Nat)}
    {p : String × CommandPos} (h : entryLiveB segs p = true) :
    entryLiveB (segs ++ tail) p = true := by
  obtain ⟨file, v, hl, hb, hd⟩ := entryLive_destruct h
  simp only [entryLiveB, alLookup_append_left tail hl, entryLiveFile, hd,
    Bool.and_eq_true, decide_eq_true_eq]
  exact ⟨hb, trivial⟩

theorem forall₂_map_eq {α β γ : Type} {R : α → β → Prop} {f : α → γ} {g : β → γ}
    (hfg : ∀ p q, R p q → f p = g q) :
    ∀ {l : List α} {l' : List β}, List.Forall₂ R l l' → l.map f = l'.map g := by
  intro l l' h
  induction h with
  | nil => rfl
  | cons hR _ ih => simp only [List.map_cons, hfg _ _ hR, ih]

theorem forall₂_right_mem {α β : Type} {R : α → β → Prop} :
    ∀ {l : List α} {l' : List β}, List.Forall₂ R l l' →
      ∀ q ∈ l', ∃ p ∈ l, R p q := by
  intro l l' h
  induction h with
  | nil => intro q hq; simp at hq
  | cons hR hrest ih =>
    intro q hq
    rcases List.mem_cons.mp hq with h1 | h1
    · subst h1
      exact ⟨_, by simp, hR⟩
    · obtain ⟨p, hp, hpq⟩ := ih q h1
      exact ⟨p, List.mem_cons_of_mem _ hp, hpq⟩

theorem alLookup_forall₂ {R : (String × CommandPos) → (String × CommandPos) → Prop}
    (hkey : ∀ p q, R p q → p.1 = q.1) :
    ∀ {idx idx' : List (String × CommandPos)}, List.Forall₂ R idx idx' →
      ∀ k, (alLookup idx k = none ∧ alLookup idx' k = none) ∨
        (∃ cp cp', alLookup idx k = some cp ∧ alLookup idx' k = some cp' ∧
          R (k, cp) (k, cp')) := by
  intro idx idx' h
  induction h with
  | nil => intro k; exact Or.inl ⟨rfl, rfl⟩
  | cons hR hrest ih =>
    intro k
    rename_i p q l l'
    have hk := hkey p q hR
    by_cases he : k = p.1
    · right
      refine ⟨p.2, q.2, ?_, ?_, ?_⟩
      · simp [alLookup, he]
      · simp [alLookup, he, ← hk]
      · have hp : (k, p.2) = p := by
          rw [he]
        have hq : (k, q.2) = q := by
          rw [he, hk]
        rw [hp, hq]
        exact hR
    · have he' : k ≠ q.1 := by rw [← hk]; exact he
      rcases ih k with ⟨h1, h2⟩ | ⟨cp, cp', h1, h2, h3⟩
      · left
        constructor
        · simp [alLookup, he, h1]
        · simp [alLookup, he', h2]
      · right
        refine ⟨cp, cp', ?_, ?_, h3⟩
        · simp [alLookup, he, h1]
        · simp [alLookup, he', h2]

theorem compact_ok {s : KvStore} (hinv : Inv s) :
    ∃ s', s.compact = .ok s' ∧ Inv s' ∧
      s'.current_gen = s.current_gen + 2 ∧
      s'.stale_bytes = 0 ∧
      s'.index.map Prod.fst = s.index.map Prod.fst ∧
      (∀ q ∈ s'.index, q.2.gen = s.current_gen + 1) ∧
      s'.index.map (fun p => p.2.len) = s.index.map (fun p => p.2.len) ∧
      s'.segs.map Prod.fst = [s.current_gen + 1, s.current_gen + 2] ∧
      (∀ k, s'.get k = s.get k) := by
  have hlt1 : ∀ p ∈ s.segs, p.1 < s.current_gen + 1 := by
    intro p hp
    have := hinv.genLe p hp
    omega
  have hlt2 : ∀ p ∈ s.segs, p.1 < s.current_gen + 2 := by
    intro p hp
    have := hinv.genLe p hp
    omega
  have hseg1 : new_log_file s.segs (s.current_gen + 2) =
      s.segs ++ [(s.current_gen + 2, [])] := new_log_file_big hlt2
  have hseg2 : new_log_file (s.segs ++ [(s.current_gen + 2, [])]) (s.current_gen + 1) =
      s.segs ++ [(s.current_gen + 1, []), (s.current_gen + 2, [])] :=
    new_log_file_mid hlt1 (by omega)
  set segs2 : List (Nat × List Nat) :=
    s.segs ++ [(s.current_gen + 1, []), (s.current_gen + 2, [])] with hsegs2
  have hidx2 : ∀ p ∈ s.index, entryLiveB segs2 p = true := by
    intro p hp
    exact entryLiveB_append (hinv.live p hp)
  obtain ⟨idx', blob, heq, hrel, hload⟩ :=
    compactLoop_ok segs2 (s.current_gen + 1) s.index hidx2 hinv.isort []
  simp only [List.length_nil, List.nil_append] at heq hrel hload
  have hwrite : segWrite segs2 (s.current_gen + 1) blob =
      s.segs ++ [(s.current_gen + 1, blob), (s.current_gen + 2, [])] := by
    rw [hsegs2]
    exact segWrite_snoc2 hlt1 (by omega) blob
  have hfil : (s.segs ++ [(s.current_gen + 1, blob), (s.current_gen + 2, [])]).filter
      (fun p => ! natLt p.1 (s.current_gen + 1)) =
      [(s.current_gen + 1, blob), (s.current_gen + 2, [])] := by
    rw [List.filter_append]
    have h1 : s.segs.filter (fun p => ! natLt p.1 (s.current_gen + 1)) = [] := by
      rw [List.filter_eq_nil_iff]
      intro a ha
      have := hinv.genLe a ha
      simp only [natLt, Bool.not_eq_true', decide_eq_false_iff_not, not_lt]
      omega
    rw [h1]
    have h2 : (! natLt (s.current_gen + 1) (s.current_gen + 1)) = true := by
      rw [natLt_irrefl]
      rfl
    have h3 : (! natLt (s.current_gen + 2) (s.current_gen + 1)) = true := by
      have hx : natLt (s.current_gen + 2) (s.current_gen + 1) = false := by
        simp [natLt]
      rw [hx]
      rfl
    simp only [List.filter, h2, h3]
    rfl
  have hcomp : s.compact = .ok
      { segs := [(s.current_gen + 1, blob), (s.current_gen + 2, [])],
        index := idx',
        current_gen := s.current_gen + 2,
        stale_bytes := 0 } := by
    rw [KvStore.compact]
    simp only [hseg1, hseg2, ← hsegs2, heq, hwrite, hfil]
  have hkeys : s.index.map Prod.fst = idx'.map Prod.fst :=
    forall₂_map_eq (fun p q h => h.1) hrel
  have hlens : s.index.map (fun p => p.2.len) = idx'.map (fun p => p.2.len) :=
    forall₂_map_eq (fun p q h => h.2.2.1.symm) hrel
  have hgens : ∀ q ∈ idx', q.2.gen = s.current_gen + 1 := by
    intro q hq
    obtain ⟨p, hp, hR⟩ := forall₂_right_mem hrel q hq
    exact hR.2.1
  have hlookblob : alLookup [(s.current_gen + 1, blob), (s.current_gen + 2, [])]
      (s.current_gen + 1) = some blob := by
    simp [alLookup]
  refine ⟨_, hcomp, ?_, rfl, rfl, hkeys.symm, hgens, hlens.symm, by simp, ?_⟩
  · refine ⟨?_, ?_, ?_, ?_, ?_, ?_⟩
    · simp only [alSorted]
      refine List.pairwise_cons.mpr ⟨?_, ?_⟩
      · intro q hq
        simp only [List.mem_singleton] at hq
        subst hq
        simp [natLt]
      · simp [natLt]
    · intro p hp
      rcases List.mem_cons.mp hp with h | h
      · subst h; simp
      · simp only [List.mem_singleton] at h
        subst h
        simp
    · have hx : alLookup [(s.current_gen + 1, blob), (s.current_gen + 2, [])]
          (s.current_gen + 2) = some [] := by
        simp only [alLookup]
        rw [if_neg (by omega)]
        simp
      rw [hx]
      rfl
    · have hll : load_log (s.current_gen + 1) blob [] = some (idx', 0) := by
        rw [load_log]
        have := hload [] 0 (by intro p0 hp0; simp at hp0)
        simpa using this
      have h2 : load_log (s.current_gen + 2) [] idx' = some (idx', 0) := by
        rw [load_log, loadLoop_nil]
      simp only [loadAll, hll, h2]
      rfl
    · exact alSorted_congr hkeys hinv.isort
    · intro q hq
      obtain ⟨p, hp, hR⟩ := forall₂_right_mem hrel q hq
      obtain ⟨hk, hgen, hlen, hbound, file, hlf, hslice⟩ := hR
      obtain ⟨file0, v, hl0, hb0, hd0⟩ := entryLive_destruct (hinv.live p hp)
      have hfe : file = file0 := by
        have : alLookup segs2 p.2.gen = some file0 :=
          alLookup_append_left _ hl0
        rw [this] at hlf
        injection hlf with h1
        exact h1.symm
      subst hfe
      simp only [entryLiveB, hgen, hlookblob, entryLiveFile, Bool.and_eq_true,
        decide_eq_true_eq]
      constructor
      · simpa using hbound
      · have hsl : (blob.drop q.2.pos).take q.2.len =
            (file.drop p.2.pos).take p.2.len := by
          simpa using hslice
        rw [hsl, hd0]
        simp [hk]
  · intro k
    rcases alLookup_forall₂ (fun p q h => h.1) hrel k with ⟨h1, h2⟩ |
      ⟨cp, cp', h1, h2, hR⟩
    · simp only [KvStore.get, h1, h2]
    · obtain ⟨hk, hgen, hlen, hbound, file, hlf, hslice⟩ := hR
      obtain ⟨file0, v, hl0, hb0, hd0⟩ :=
        entryLive_destruct (hinv.live (k, cp) (alLookup_mem h1))
      simp only at hl0 hb0 hd0
      have hfe : file = file0 := by
        have : alLookup segs2 cp.gen = some file0 :=
          alLookup_append_left _ hl0
        simp only at hlf
        rw [this] at hlf
        injection hlf with hx
        exact hx.symm
      subst hfe
      simp only [KvStore.get, h1, h2, hl0]
      simp only at hgen hslice
      simp only [hgen, hlookblob]
      have hsl : (blob.drop cp'.pos).take cp'.len =
          (file.drop cp.pos).take cp.len := by
        simpa using hslice
      rw [hsl]

theorem set_ok {s : KvStore} (hinv : Inv s) (k v : String) :
    ∃ s', s.set k v = .ok s' ∧ Inv s' ∧
      s'.get k = .ok (some v) ∧
      (∀ k', k' ≠ k → s'.get k' = s.get k') ∧
      s'.stale_bytes ≤ COMPACTION_THRESHOLD := by
  obtain ⟨hi, hcg, hst, hg1, hg2⟩ := setMid_spec hinv k v
  rw [KvStore.set]
  by_cases hth : COMPACTION_THRESHOLD < (s.setMid k v).stale_bytes
  · rw [if_pos hth]
    obtain ⟨s', hc, hinv', hcg', hst', hkeys, hgens, hlens, hsegk, hget⟩ :=
      compact_ok hi
    refine ⟨s', hc, hinv', ?_, ?_, ?_⟩
    · rw [hget k, hg1]
    · intro k' hne
      rw [hget k', hg2 k' hne]
    · rw [hst']
      exact Nat.zero_le _
  · rw [if_neg hth]
    exact ⟨_, rfl, hi, hg1, hg2, by omega⟩

/-! ### `open`: sorting and replay establish the invariant -/

theorem sortInsert_perm (p : Nat × List Nat) (l : List (Nat × List Nat)) :
    (sortInsert p l).Perm (p :: l) := by
  induction l with
  | nil => exact List.Perm.refl _
  | cons q rest ih =>
    simp only [sortInsert]
    by_cases h : (natLt p.1 q.1 || (p.1 = q.1 : Bool)) = true
    · rw [if_pos h]
    · rw [if_neg h]
      exact (List.Perm.cons q ih).trans (List.Perm.swap p q rest)

theorem sorted_gen_list_perm (l : List (Nat × List Nat)) :
    (sorted_gen_list l).Perm l := by
  induction l with
  | nil => exact List.Perm.refl _
  | cons p rest ih =>
    simp only [sorted_gen_list]
    exact (sortInsert_perm p (sorted_gen_list rest)).trans (List.Perm.cons p ih)

theorem sortInsert_sorted_le {l : List (Nat × List Nat)}
    (h : List.Pairwise (fun a b => a.1 ≤ b.1) l) (p : Nat × List Nat) :
    List.Pairwise (fun a b => a.1 ≤ b.1) (sortInsert p l) := by
  induction l with
  | nil => simp [sortInsert]
  | cons q rest ih =>
    have hq : ∀ r ∈ rest, q.1 ≤ r.1 := (List.pairwise_cons.mp h).1
    have hrest := (List.pairwise_cons.mp h).2
    simp only [sortInsert]
    by_cases hc : (natLt p.1 q.1 || (p.1 = q.1 : Bool)) = true
    · rw [if_pos hc]
      have hple : p.1 ≤ q.1 := by
        simp only [Bool.or_eq_true, natLt, decide_eq_true_eq] at hc
        omega
      refine List.pairwise_cons.mpr ⟨?_, h⟩
      intro r hr
      rcases List.mem_cons.mp hr with h1 | h1
      · subst h1; exact hple
      · exact le_trans hple (hq r h1)
    · rw [if_neg hc]
      have hqle : q.1 ≤ p.1 := by
        simp only [Bool.or_eq_true, natLt, decide_eq_true_eq] at hc
        omega
      refine List.pairwise_cons.mpr ⟨?_, ih hrest⟩
      intro r hr
      have := (sortInsert_perm p rest).mem_iff.mp hr
      rcases List.mem_cons.mp this with h1 | h1
      · subst h1; exact hqle
      · exact hq r h1

theorem sorted_gen_list_sorted_le (l : List (Nat × List Nat)) :
    List.Pairwise (fun a b => a.1 ≤ b.1) (sorted_gen_list l) := by
  induction l with
  | nil => exact List.Pairwise.nil
  | cons p rest ih => exact sortInsert_sorted_le ih p

theorem sorted_gen_list_strict {disk : List (Nat × List Nat)}
    (hwf : (disk.map Prod.fst).Nodup) :
    alSorted natLt (sorted_gen_list disk) := by
  have hle := sorted_gen_list_sorted_le disk
  have hperm := sorted_gen_list_perm disk
  have hnd : ((sorted_gen_list disk).map Prod.fst).Nodup :=
    ((hperm.map Prod.fst).nodup_iff).mpr hwf
  have hne : List.Pairwise (fun (a b : Nat × List Nat) => a.1 ≠ b.1)
      (sorted_gen_list disk) := List.pairwise_map.mp hnd
  exact (hle.and hne).imp (by
    intro a b hab
    simp only [natLt, decide_eq_true_eq]
    omega)

theorem le_getLast_of_sorted {l : List (Nat × List Nat)}
    (h : List.Pairwise (fun a b => a.1 ≤ b.1) l) :
    ∀ p ∈ l, p.1 ≤ (l.map Prod.fst).getLast?.getD 0 := by
  induction l with
  | nil => simp
  | cons q rest ih =>
    intro p hp
    cases rest with
    | nil =>
      simp only [List.mem_singleton] at hp
      subst hp
      simp
    | cons r rest' =>
      have hq : ∀ x ∈ r :: rest', q.1 ≤ x.1 := (List.pairwise_cons.mp h).1
      have hrest := (List.pairwise_cons.mp h).2
      have hcc : ((q :: r :: rest').map Prod.fst).getLast?.getD 0 =
          ((r :: rest').map Prod.fst).getLast?.getD 0 := by
        simp only [List.map_cons, List.getLast?_cons_cons]
      rw [hcc]
      rcases List.mem_cons.mp hp with h1 | h1
      · subst h1
        have hne : ((r :: rest').map Prod.fst) ≠ [] := by simp
        have hlast := List.getLast?_eq_getLast_of_ne_nil hne
        have hmem := List.getLast_mem hne
        obtain ⟨x, hx, hxe⟩ := List.mem_map.mp hmem
        rw [hlast]
        simp only [Option.getD_some]
        rw [← hxe]
        exact hq x hx
      · exact ih hrest p h1

theorem getLast_mem_of_ne_nil {l : List (Nat × List Nat)} (hne : l ≠ []) :
    (l.map Prod.fst).getLast?.getD 0 ∈ l.map Prod.fst := by
  have hne' : l.map Prod.fst ≠ [] := by
    intro h
    exact hne (List.map_eq_nil_iff.mp h)
  rw [List.getLast?_eq_getLast_of_ne_nil hne']
  simp only [Option.getD_some]
  exact List.getLast_mem hne'

theorem alLookup_of_mem_sorted {segs : List (Nat × List Nat)}
    (hs : alSorted natLt segs) {g : Nat} {f : List Nat}
    (hm : (g, f) ∈ segs) : alLookup segs g = some f := by
  induction segs with
  | nil => simp at hm
  | cons q rest ih =>
    have hq : ∀ r ∈ rest, natLt q.1 r.1 = true := (List.pairwise_cons.mp hs).1
    have hrest := (List.pairwise_cons.mp hs).2
    rcases List.mem_cons.mp hm with h1 | h1
    · rw [← h1]
      simp [alLookup]
    · have hne : g ≠ q.1 := by
        have := hq (g, f) h1
        simp only [natLt, decide_eq_true_eq] at this
        omega
      simp only [alLookup]
      rw [if_neg hne]
      exact ih hrest h1

/-- Replaying a decodable stream from a position inside an on-disk file
produces a sorted index whose entries are all live. -/
theorem loadLoop_establish {segs : List (Nat × List Nat)} {gen : Nat}
    {file : List Nat} (hfile : alLookup segs gen = some file) :
    ∀ {bs : List Nat} {pos : Nat} {idx idx' : List (String × CommandPos)}
      {st st' : Nat},
      loadLoop gen bs pos idx st = some (idx', st') →
      bs = file.drop pos → pos ≤ file.length →
      alSorted strLt idx → (∀ p ∈ idx, entryLiveB segs p = true) →
      alSorted strLt idx' ∧ (∀ p ∈ idx', entryLiveB segs p = true) := by
  suffices h : ∀ (n : Nat) (bs : List Nat), bs.length = n →
      ∀ {pos : Nat} {idx idx' : List (String × CommandPos)} {st st' : Nat},
      loadLoop gen bs pos idx st = some (idx', st') →
      bs = file.drop pos → pos ≤ file.length →
      alSorted strLt idx → (∀ p ∈ idx, entryLiveB segs p = true) →
      alSorted strLt idx' ∧ (∀ p ∈ idx', entryLiveB segs p = true) by
    intro bs
    exact h bs.length bs rfl
  intro n
  induction n using Nat.strong_induction_on with
  | _ n ih =>
  intro bs hn pos idx idx' st st' hload hbs hpos hsort hlive
  cases hdec : decodeOne bs with
  | none =>
    by_cases hemp : bs.isEmpty
    · have hnil : bs = [] := List.isEmpty_iff.mp hemp
      subst hnil
      rw [loadLoop_nil] at hload
      injection hload with h1
      injection h1 with hi hs2
      subst hi
      exact ⟨hsort, hlive⟩
    · rw [loadLoop_undecodable hdec (Bool.not_eq_true _ ▸ hemp)] at hload
      exact Option.noConfusion hload
  | some p =>
    obtain ⟨c, r⟩ := p
    have hlt := decodeOne_length_lt hdec
    obtain ⟨htake, hdecone⟩ := decodeOne_take hdec
    have hr : r = bs.drop (bs.length - r.length) := by
      have hlen : (bs.take (bs.length - r.length)).length = bs.length - r.length := by
        simp only [List.length_take]
        omega
      have h2 := congrArg (List.drop (bs.length - r.length)) htake
      rw [List.drop_left' hlen] at h2
      exact h2
    have hbslen : bs.length = file.length - pos := by
      rw [hbs]
      simp
    have hposc : pos + (bs.length - r.length) ≤ file.length := by omega
    have hrfile : r = file.drop (pos + (bs.length - r.length)) := by
      have e1 : file.drop (pos + (bs.length - r.length)) =
          (file.drop pos).drop (bs.length - r.length) := by
        rw [List.drop_drop]
      rw [e1, ← hbs]
      exact hr
    have hslice : (file.drop pos).take (bs.length - r.length) =
        bs.take (bs.length - r.length) := by
      rw [hbs]
    cases c with
    | Set k v =>
      rw [loadLoop_set hdec] at hload
      have hsort2 := alInsert_sorted strLt_irrefl strLt_trans strLt_total hsort
        k (⟨gen, pos, bs.length - r.length⟩ : CommandPos)
      have hlive2 : ∀ p ∈ (alInsert strLt idx k
          (⟨gen, pos, bs.length - r.length⟩ : CommandPos)).1,
          entryLiveB segs p = true := by
        intro p hp
        rcases alInsert_mem p hp with h1 | h1
        · subst h1
          simp only [entryLiveB, hfile, entryLiveFile, Bool.and_eq_true,
            decide_eq_true_eq]
          refine ⟨hposc, ?_⟩
          rw [hslice]
          have := decodeCmd_of_decodeOne hdec
          rw [this]
          simp
        · exact hlive p h1
      exact ih r.length (by omega) r rfl hload hrfile hposc hsort2 hlive2
    | Remove k =>
      rw [loadLoop_rm hdec] at hload
      have hsort2 := alRemove_sorted hsort k
      have hlive2 : ∀ p ∈ (alRemove idx k).1, entryLiveB segs p = true := by
        intro p hp
        exact hlive p ((alRemove_sublist idx k).mem hp)
      exact ih r.length (by omega) r rfl hload hrfile hposc hsort2 hlive2

theorem loadAll_establish (segs : List (Nat × List Nat)) :
    ∀ (l : List (Nat × List Nat)),
      (∀ q ∈ l, alLookup segs q.1 = some q.2) →
      ∀ {idx idx' : List (String × CommandPos)} {st' : Nat},
      loadAll l idx = some (idx', st') →
      alSorted strLt idx → (∀ p ∈ idx, entryLiveB segs p = true) →
      alSorted strLt idx' ∧ (∀ p ∈ idx', entryLiveB segs p = true) := by
  intro l
  induction l with
  | nil =>
    intro _ idx idx' st' h hsort hlive
    simp only [loadAll, Option.some.injEq, Prod.mk.injEq] at h
    obtain ⟨hi, _⟩ := h
    subst hi
    exact ⟨hsort, hlive⟩
  | cons q rest ih =>
    intro hl idx idx' st' h hsort hlive
    obtain ⟨gen, f⟩ := q
    simp only [loadAll] at h
    cases h0 : load_log gen f idx with
    | none => simp only [h0] at h; exact Option.noConfusion h
    | some p0 =>
      obtain ⟨idx1, st1⟩ := p0
      simp only [h0] at h
      have hfile : alLookup segs gen = some f := hl (gen, f) (by simp)
      have hstep := loadLoop_establish hfile h0 (by simp) (by simp)
        hsort hlive
      split at h
      · exact Option.noConfusion h
      · next i2 st2 h1 =>
        simp only [Option.some.injEq, Prod.mk.injEq] at h
        obtain ⟨hi, _⟩ := h
        subst hi
        exact ih (fun q hq => hl q (List.mem_cons_of_mem _ hq)) h1
          hstep.1 hstep.2

theorem openStore_inv {disk : List (Nat × List Nat)} {s : KvStore}
    (hwf : (disk.map Prod.fst).Nodup)
    (h : KvStore.openStore disk = .ok s) :
    Inv s ∧
    s.segs = sorted_gen_list disk ++ [(s.current_gen, [])] ∧
    s.current_gen =
      (((sorted_gen_list disk).map Prod.fst).getLast?.getD 0) + 1 ∧
    (loadAll (sorted_gen_list disk) []).map Prod.fst = some s.index := by
  rw [KvStore.openStore] at h
  cases hA : loadAll (sorted_gen_list disk) [] with
  | none =>
    simp only [hA] at h
    exact Except.noConfusion h
  | some p =>
    obtain ⟨index, stale⟩ := p
    simp only [hA] at h
    injection h with h1
    set cg := (((sorted_gen_list disk).map Prod.fst).getLast?.getD 0) + 1 with hcg
    have hstrict := sorted_gen_list_strict hwf
    have hle := sorted_gen_list_sorted_le disk
    have hlt : ∀ p ∈ sorted_gen_list disk, p.1 < cg := by
      intro p hp
      have := le_getLast_of_sorted hle p hp
      omega
    have hbig : new_log_file (sorted_gen_list disk) cg =
        sorted_gen_list disk ++ [(cg, [])] := new_log_file_big hlt
    have hsval : s =
        { segs := sorted_gen_list disk ++ [(cg, [])],
          index := index, current_gen := cg, stale_bytes := stale } := by
      rw [← h1, hbig]
    have hssort : alSorted natLt (sorted_gen_list disk ++ [(cg, [])]) := by
      refine List.pairwise_append.mpr ⟨hstrict, List.pairwise_singleton _ _, ?_⟩
      intro a ha b hb
      simp only [List.mem_singleton] at hb
      subst hb
      simp only [natLt, decide_eq_true_eq]
      exact hlt a ha
    have hfull : ∀ q ∈ sorted_gen_list disk,
        alLookup (sorted_gen_list disk ++ [(cg, [])]) q.1 = some q.2 := by
      intro q hq
      obtain ⟨g, f⟩ := q
      exact alLookup_of_mem_sorted hssort (List.mem_append_left _ hq)
    have hest := loadAll_establish (sorted_gen_list disk ++ [(cg, [])])
      (sorted_gen_list disk) hfull hA List.Pairwise.nil (by intro p hp; simp at hp)
    refine ⟨?_, by rw [hsval], by rw [hsval], by simp only [hsval, hA]; rfl⟩
    rw [hsval]
    refine ⟨hssort, ?_, ?_, ?_, hest.1, hest.2⟩
    · intro p hp
      rcases List.mem_append.mp hp with hx | hx
      · have := hlt p hx
        show p.1 ≤ cg
        omega
      · simp only [List.mem_singleton] at hx
        subst hx
        exact le_refl _
    · rw [alLookup_snoc_self hlt]
      rfl
    · rw [loadAll_append hA, loadAll_single]
      rw [load_log, loadLoop_nil]
      rfl

/-! ### Operation sequences, reachability, and the map abstraction -/

inductive Op where
  | set (key value : String)
  | remove (key : String)
deriving DecidableEq, Repr

def applyOp (s : KvStore) : Op → Except KvsError KvStore
  | .set k v => s.set k v
  | .remove k => s.remove k

def runOps : KvStore → List Op → Except KvsError KvStore
  | s, [] => .ok s
  | s, op :: rest =>
    match applyOp s op with
    | .ok s' => runOps s' rest
    | .error e => .error e

/-- Pure association-list map used as the specification of the engine. -/
def sLookup : List (String × String) → String → Option String
  | [], _ => none
  | p :: rest, k => if k = p.1 then some p.2 else sLookup rest k

def specErase (m : List (String × String)) (k : String) :
    List (String × String) :=
  m.filter (fun p => ! (p.1 = k : Bool))

def specApply (m : List (String × String)) : Op → Option (List (String × String))
  | .set k v => some ((k, v) :: m)
  | .remove k => if (sLookup m k).isSome then some (specErase m k) else none

def specRun : List (String × String) → List Op → Option (List (String × String))
  | m, [] => some m
  | m, op :: rest =>
    match specApply m op with
    | some m' => specRun m' rest
    | none => none

theorem sLookup_erase_self (m : List (String × String)) (k : String) :
    sLookup (specErase m k) k = none := by
  induction m with
  | nil => rfl
  | cons p rest ih =>
    simp only [specErase, List.filter] at ih ⊢
    by_cases he : p.1 = k
    · simp only [he, decide_True, Bool.not_true]
      exact ih
    · simp only [he, decide_False, Bool.not_false]
      simp only [sLookup]
      rw [if_neg (fun hx => he hx.symm)]
      exact ih

theorem sLookup_erase_ne (m : List (String × String)) {k k' : String}
    (hne : k' ≠ k) : sLookup (specErase m k) k' = sLookup m k' := by
  induction m with
  | nil => rfl
  | cons p rest ih =>
    simp only [specErase, List.filter] at ih ⊢
    by_cases he : p.1 = k
    · have hk' : ¬ (k' = p.1) := fun hx => hne (hx.trans he)
      simp only [he, decide_True, Bool.not_true]
      rw [ih]
      simp only [sLookup]
      rw [if_neg hk']
    · simp only [he, decide_False, Bool.not_false]
      simp only [sLookup]
      by_cases h2 : k' = p.1
      · rw [if_pos h2, if_pos h2]
      · rw [if_neg h2, if_neg h2]
        exact ih

theorem get_none_of_index {s : KvStore} {k : String}
    (h : alLookup s.index k = none) : s.get k = .ok none := by
  rw [KvStore.get, h]

theorem get_some_of_index {s : KvStore} (hinv : Inv s) {k : String}
    {cp : CommandPos} (h : alLookup s.index k = some cp) :
    ∃ v, s.get k = .ok (some v) := by
  obtain ⟨file, v, hl, hb, hd⟩ :=
    entryLive_destruct (hinv.live (k, cp) (alLookup_mem h))
  simp only at hl hb hd
  refine ⟨v, ?_⟩
  rw [KvStore.get, h]
  simp only [hl, hd]

theorem runOps_inv {ops : List Op} : ∀ {s0 s : KvStore}, Inv s0 →
    runOps s0 ops = .ok s → Inv s := by
  induction ops with
  | nil =>
    intro s0 s h0 h
    simp only [runOps] at h
    injection h with h1
    rw [← h1]
    exact h0
  | cons op rest ih =>
    intro s0 s h0 h
    simp only [runOps] at h
    cases op with
    | set k v =>
      obtain ⟨s1, hs1, hinv1, _, _, _⟩ := set_ok h0 k v
      simp only [applyOp, hs1] at h
      exact ih hinv1 h
    | remove k =>
      cases hidx : alLookup s0.index k with
      | none =>
        rw [applyOp] at h
        rw [remove_err (by rw [hidx]; rfl)] at h
        exact Except.noConfusion h
      | some cp =>
        obtain ⟨s1, hs1, hinv1, _⟩ := remove_spec h0 hidx
        simp only [applyOp, hs1] at h
        exact ih hinv1 h

theorem runOps_abs {ops : List Op} :
    ∀ {s0 : KvStore} {m0 : List (String × String)}, Inv s0 →
    (∀ k, s0.get k = .ok (sLookup m0 k)) →
    ∀ {s : KvStore}, runOps s0 ops = .ok s →
    ∃ m, specRun m0 ops = some m ∧ Inv s ∧
      ∀ k, s.get k = .ok (sLookup m k) := by
  induction ops with
  | nil =>
    intro s0 m0 h0 habs s h
    simp only [runOps] at h
    injection h with h1
    subst h1
    exact ⟨m0, rfl, h0, habs⟩
  | cons op rest ih =>
    intro s0 m0 h0 habs s h
    simp only [runOps] at h
    cases op with
    | set k v =>
      obtain ⟨s1, hs1, hinv1, hg1, hg2, _⟩ := set_ok h0 k v
      simp only [applyOp, hs1] at h
      have habs1 : ∀ k', s1.get k' = .ok (sLookup ((k, v) :: m0) k') := by
        intro k'
        by_cases he : k' = k
        · subst he
          rw [hg1]
          simp [sLookup]
        · rw [hg2 k' he, habs k']
          simp only [sLookup]
          rw [if_neg he]
      obtain ⟨m, hm, hinvf, habsf⟩ := ih hinv1 habs1 h
      exact ⟨m, by simp only [specRun, specApply]; exact hm, hinvf, habsf⟩
    | remove k =>
      cases hidx : alLookup s0.index k with
      | none =>
        rw [applyOp] at h
        rw [remove_err (by rw [hidx]; rfl)] at h
        exact Except.noConfusion h
      | some cp =>
        obtain ⟨s1, hs1, hinv1, _, _, _, _, hg1, hg2⟩ := remove_spec h0 hidx
        simp only [applyOp, hs1] at h
        obtain ⟨v, hv⟩ := get_some_of_index h0 hidx
        have hm0k : sLookup m0 k = some v := by
          have := habs k
          rw [hv] at this
          injection this with h2
          exact h2.symm
        have habs1 : ∀ k', s1.get k' = .ok (sLookup (specErase m0 k) k') := by
          intro k'
          by_cases he : k' = k
          · subst he
            rw [hg1, sLookup_erase_self]
          · rw [hg2 k' he, habs k', sLookup_erase_ne m0 he]
        obtain ⟨m, hm, hinvf, habsf⟩ := ih hinv1 habs1 h
        refine ⟨m, ?_, hinvf, habsf⟩
        simp only [specRun, specApply, hm0k]
        simp only [Option.isSome_some, if_pos]
        exact hm

/-- Opening an empty directory. -/
theorem openStore_empty :
    KvStore.openStore [] = .ok
      { segs := [(1, [])], index := [], current_gen := 1, stale_bytes := 0 } := by
  rfl

/-- Reachable store states: obtained by opening a directory (with unique
file names) and running a sequence of engine calls. -/
def Reachable (s : KvStore) : Prop :=
  ∃ disk ops s0, (disk.map Prod.fst).Nodup ∧
    KvStore.openStore disk = .ok s0 ∧ runOps s0 ops = .ok s

theorem reachable_inv {s : KvStore} (h : Reachable s) : Inv s := by
  obtain ⟨disk, ops, s0, hwf, hopen, hrun⟩ := h
  exact runOps_inv (openStore_inv hwf hopen).1 hrun

/-- Does an operation address the given key? -/
def touches (op : Op) (k : String) : Bool :=
  match op with
  | .set kk _ => decide (k = kk)
  | .remove kk => decide (k = kk)

/-- The last operation in the sequence that addresses `k`, if any. -/
def lastWrite (k : String) : List Op → Option Op
  | [] => none
  | op :: rest =>
    match lastWrite k rest with
    | some w => some w
    | none => if touches op k then some op else none

theorem specRun_lastWrite {ops : List Op} :
    ∀ {m0 m : List (String × String)}, specRun m0 ops = some m →
    ∀ k, sLookup m k =
      (match lastWrite k ops with
       | some (.set _ v) => some v
       | some (.remove _) => none
       | none => sLookup m0 k) := by
  induction ops with
  | nil =>
    intro m0 m h k
    simp only [specRun, Option.some.injEq] at h
    subst h
    rfl
  | cons op rest ih =>
    intro m0 m h k
    simp only [specRun] at h
    cases hap : specApply m0 op with
    | none => simp only [hap] at h; exact Option.noConfusion h
    | some m1 =>
      simp only [hap] at h
      have hrec := ih h k
      simp only [lastWrite]
      cases hlw : lastWrite k rest with
      | some w =>
        simp only [hlw] at hrec
        simp only [hlw]
        cases w with
        | set kk vv => exact hrec
        | remove kk => exact hrec
      | none =>
        simp only [hlw] at hrec
        simp only [hlw]
        cases op with
        | set kk v =>
          simp only [specApply, Option.some.injEq] at hap
          subst hap
          simp only [touches]
          by_cases he : k = kk
          · rw [if_pos (by simp [he])]
            rw [hrec]
            simp [sLookup, he]
          · rw [if_neg (by simp [he])]
            rw [hrec]
            simp only [sLookup]
            rw [if_neg he]
        | remove kk =>
          simp only [specApply] at hap
          by_cases hg : (sLookup m0 kk).isSome
          · rw [if_pos hg] at hap
            injection hap with hap1
            subst hap1
            simp only [touches]
            by_cases he : k = kk
            · rw [if_pos (by simp [he])]
              rw [hrec, he, sLookup_erase_self]
            · rw [if_neg (by simp [he])]
              rw [hrec, sLookup_erase_ne m0 he]
          · rw [if_neg hg] at hap
            exact Option.noConfusion hap

/-! ### Reopening a store directory (recovery round-trip) -/

theorem segs_nodup {s : KvStore} (hinv : Inv s) :
    (s.segs.map Prod.fst).Nodup := by
  have h := hinv.ssort
  rw [alSorted_iff_keys] at h
  exact h.imp (by
    intro a b hab
    simp only [natLt, decide_eq_true_eq] at hab
    omega)

theorem sortInsert_of_le {p : Nat × List Nat} :
    ∀ {l : List (Nat × List Nat)}, (∀ q ∈ l, p.1 ≤ q.1) →
      sortInsert p l = p :: l := by
  intro l hle
  cases l with
  | nil => rfl
  | cons q rest =>
    have hq : p.1 ≤ q.1 := hle q (by simp)
    simp only [sortInsert]
    rw [if_pos ?_]
    simp only [Bool.or_eq_true, natLt, decide_eq_true_eq]
    omega

theorem sorted_gen_list_id :
    ∀ {l : List (Nat × List Nat)}, List.Pairwise (fun a b => a.1 ≤ b.1) l →
      sorted_gen_list l = l := by
  intro l h
  induction l with
  | nil => rfl
  | cons p rest ih =>
    simp only [sorted_gen_list]
    rw [ih (List.pairwise_cons.mp h).2]
    exact sortInsert_of_le (fun q hq => (List.pairwise_cons.mp h).1 q hq)

theorem reopen_spec {s : KvStore} (hinv : Inv s) :
    ∃ s', KvStore.openStore s.segs = .ok s' ∧ s'.index = s.index ∧
      s'.current_gen = s.current_gen + 1 ∧
      (∀ k, s'.get k = s.get k) := by
  obtain ⟨pre, file, hsegs, hpre, hlook⟩ :=
    segs_decomp hinv.ssort hinv.genLe hinv.curMem
  have hle : List.Pairwise (fun (a b : Nat × List Nat) => a.1 ≤ b.1) s.segs :=
    hinv.ssort.imp (by
      intro a b hab
      simp only [natLt, decide_eq_true_eq] at hab
      omega)
  have hid : sorted_gen_list s.segs = s.segs := sorted_gen_list_id hle
  have hrep := hinv.replay
  cases hld : loadAll s.segs [] with
  | none => rw [hld] at hrep; exact Option.noConfusion hrep
  | some p =>
    obtain ⟨i0, st0⟩ := p
    rw [hld] at hrep
    have hi0 : i0 = s.index := by simpa using hrep
    subst hi0
    have hlast : ((s.segs.map Prod.fst).getLast?.getD 0) = s.current_gen := by
      rw [hsegs]
      simp only [List.map_append, List.map_cons, List.map_nil]
      rw [List.getLast?_concat]
      rfl
    have hopen : KvStore.openStore s.segs = .ok
        { segs := s.segs ++ [(s.current_gen + 1, [])],
          index := s.index, current_gen := s.current_gen + 1,
          stale_bytes := st0 } := by
      rw [KvStore.openStore]
      simp only [hid, hld]
      rw [hlast]
      rw [new_log_file_big (by
        intro p hp
        have := hinv.genLe p hp
        omega)]
    refine ⟨_, hopen, rfl, rfl, ?_⟩
    intro k
    simp only [KvStore.get]
    cases hcp : alLookup s.index k with
    | none => rfl
    | some cp =>
      obtain ⟨f0, v, hl0, hb0, hd0⟩ :=
        entryLive_destruct (hinv.live (k, cp) (alLookup_mem hcp))
      simp only at hl0 hb0 hd0
      simp only [alLookup_append_left _ hl0, hl0]


/-! ### Example states used by the witnesses -/

def exOpsA : List Op := [.set "a" "1", .set "b" "2", .set "a" "3"]

def exStoreA : KvStore :=
  ⟨[(1, [0, 1, 97, 1, 49, 0, 1, 98, 1, 50, 0, 1, 97, 1, 51])],
   [("a", ⟨1, 10, 5⟩), ("b", ⟨1, 5, 5⟩)], 1, 5⟩

def exStore1 : KvStore :=
  ⟨[(1, [0, 1, 97, 1, 49])], [("a", ⟨1, 0, 5⟩)], 1, 0⟩

theorem inv_emptyStore : Inv (⟨[(1, [])], [], 1, 0⟩ : KvStore) :=
  (openStore_inv (by simp) openStore_empty).1

theorem runA : runOps ⟨[(1, [])], [], 1, 0⟩ exOpsA = .ok exStoreA := by rfl

theorem run1 : runOps ⟨[(1, [])], [], 1, 0⟩ [.set "a" "1"] = .ok exStore1 := by
  rfl

theorem inv_exStoreA : Inv exStoreA := runOps_inv inv_emptyStore runA

theorem inv_exStore1 : Inv exStore1 := runOps_inv inv_emptyStore run1

/-! ### The claims -/

/-- Claim C1: starting from a store opened on an empty directory, for every
key and every operation sequence whose last operation addressing that key is
a `set` (in particular any run of sets with no later remove of the key),
`get` returns `some` of the most recently set value; a key never addressed
yields `none`. -/
theorem C1_get_returns_latest (ops : List Op) (k v : String) (s : KvStore)
    (h : (KvStore.openStore []).bind (fun s0 => runOps s0 ops) = .ok s) :
    (lastWrite k ops = some (.set k v) → s.get k = .ok (some v)) ∧
    (lastWrite k ops = none → s.get k = .ok none) := by
  rw [openStore_empty] at h
  simp only [Except.bind] at h
  have hinv0 : Inv (⟨[(1, [])], [], 1, 0⟩ : KvStore) :=
    (openStore_inv (by simp) openStore_empty).1
  have habs0 : ∀ k', KvStore.get (⟨[(1, [])], [], 1, 0⟩ : KvStore) k' =
      .ok (sLookup [] k') := fun k' => rfl
  obtain ⟨m, hm, hinv, habs⟩ := runOps_abs hinv0 habs0 h
  have hlast := specRun_lastWrite hm k
  constructor
  · intro hlw
    rw [habs k, hlast]
    simp only [hlw]
  · intro hlw
    rw [habs k, hlast]
    simp only [hlw]
    rfl

theorem C1_witness :
    ((KvStore.openStore []).bind (fun s0 => runOps s0 exOpsA) = .ok exStoreA) ∧
    lastWrite "a" exOpsA = some (.set "a" "3") ∧
    lastWrite "zz" exOpsA = none ∧
    exStoreA.get "a" = .ok (some "3") ∧
    exStoreA.get "zz" = .ok none := by
  refine ⟨by rfl, by rfl, by rfl, ?_, ?_⟩
  · exact (C1_get_returns_latest exOpsA "a" "3" exStoreA (by rfl)).1 (by rfl)
  · exact (C1_get_returns_latest exOpsA "zz" "0" exStoreA (by rfl)).2 (by rfl)

/-- Claim C2: in any well-formed store state, removing a key present in the
index succeeds, after which `get` of the key returns `none` and a second
`remove` fails with `KeyNotFound`; removing a key absent from the index
fails with `KeyNotFound`. -/
theorem C2_remove_semantics (s : KvStore) (k : String) (hinv : Inv s) :
    (∀ cp : CommandPos, alLookup s.index k = some cp →
      ∃ s', s.remove k = .ok s' ∧ s'.get k = .ok none ∧
        s'.remove k = .error .KeyNotFound) ∧
    (alLookup s.index k = none → s.remove k = .error .KeyNotFound) := by
  constructor
  · intro cp hcp
    obtain ⟨s', hs', hinv', hcg, hst, hidx', hsegk, hg1, hg2⟩ :=
      remove_spec hinv hcp
    refine ⟨s', hs', hg1, ?_⟩
    apply remove_err
    rw [hidx', alRemove_lookup_self strLt_irrefl hinv.isort k]
    rfl
  · intro hnone
    exact remove_err (by rw [hnone]; rfl)

theorem C2_witness :
    (∃ s', exStore1.remove "a" = .ok s' ∧ s'.get "a" = .ok none ∧
      s'.remove "a" = .error .KeyNotFound) ∧
    exStore1.remove "zz" = .error .KeyNotFound :=
  ⟨(C2_remove_semantics exStore1 "a" inv_exStore1).1 ⟨1, 0, 5⟩ (by rfl),
   (C2_remove_semantics exStore1 "zz" inv_exStore1).2 (by rfl)⟩

/-- Claim C3: for every operation sequence applied to a store opened on an
empty directory, reopening the resulting directory yields a store with
exactly the same index (hence the same key set), and `get` of every key
returns the same value as before the close. -/
theorem C3_recovery_roundtrip (ops : List Op) (s : KvStore)
    (h : (KvStore.openStore []).bind (fun s0 => runOps s0 ops) = .ok s) :
    ∃ s', KvStore.openStore s.segs = .ok s' ∧
      s'.index = s.index ∧
      s'.index.map Prod.fst = s.index.map Prod.fst ∧
      (∀ k, s'.get k = s.get k) := by
  rw [openStore_empty] at h
  simp only [Except.bind] at h
  have hinv : Inv s :=
    runOps_inv (openStore_inv (by simp) openStore_empty).1 h
  obtain ⟨s', h1, h2, h3, h4⟩ := reopen_spec hinv
  exact ⟨s', h1, h2, by rw [h2], h4⟩

theorem C3_witness :
    ∃ s', KvStore.openStore exStoreA.segs = .ok s' ∧
      s'.index = exStoreA.index ∧
      s'.index.map Prod.fst = exStoreA.index.map Prod.fst ∧
      (∀ k, s'.get k = exStoreA.get k) :=
  C3_recovery_roundtrip exOpsA exStoreA (by rfl)

/-! ### A record larger than the compaction threshold, and further example
states (for C4 and C6) -/

def bigV : String := String.mk (List.replicate 1048573 'a')

def bigEnc : List Nat := encodeCmd (.Set "k" bigV)

theorem encLen (n : Nat) :
    (encodeCmd (.Set "k" (String.mk (List.replicate n 'a')))).length = n + 4 := by
  rw [encodeCmd, List.length_cons, List.length_append]
  rw [encodeStr, encodeStr, List.length_cons, List.length_cons,
    List.length_map, List.length_map]
  show "k".toList.length + 1 + ((List.replicate n 'a').length + 1) + 1 = n + 4
  rw [List.length_replicate]
  show 1 + 1 + (n + 1) + 1 = n + 4
  omega

theorem bigEnc_len : bigEnc.length = 1048577 := encLen 1048573

theorem decodeOne_bigEnc : decodeOne bigEnc = some (.Set "k" bigV, []) := by
  have h := decodeOne_encodeCmd (.Set "k" bigV) []
  rw [List.append_nil] at h
  exact h

theorem load_log_big :
    load_log 0 bigEnc [] = some ([("k", ⟨0, 0, 1048577⟩)], 0) := by
  rw [load_log, loadLoop_set decodeOne_bigEnc, loadLoop_nil]
  rw [show bigEnc.length - List.length ([] : List Nat) = 1048577 from by
    rw [bigEnc_len]; rfl]
  rfl

theorem openStore_big : KvStore.openStore [(0, bigEnc)] = .ok
    ⟨[(0, bigEnc), (1, [])], [("k", ⟨0, 0, 1048577⟩)], 1, 0⟩ := by
  have hA : loadAll (sorted_gen_list [(0, bigEnc)]) [] =
      some ([("k", ⟨0, 0, 1048577⟩)], 0) := by
    show loadAll [(0, bigEnc)] [] = _
    rw [loadAll_single, load_log_big]
  rw [KvStore.openStore]
  simp only [hA]
  rfl

def exStore1x : KvStore :=
  ⟨[(1, [0, 1, 97, 1, 49, 0, 1, 120, 1, 121])],
   [("a", ⟨1, 0, 5⟩), ("x", ⟨1, 5, 5⟩)], 1, 0⟩

def exStore1r : KvStore :=
  ⟨[(1, [0, 1, 97, 1, 49, 1, 1, 97])], [], 1, 5⟩

/-- Claim C4 (corrected): the compaction threshold is consulted only by
`set`: after a successful `set` the stale-byte counter never exceeds the
threshold, whereas a successful `remove` does not compact at all — it keeps
the segment list and the current generation and only grows the stale
counter by the superseded record's length, so the counter can stay above
the threshold after `remove` (see the counterexample). -/
theorem C4_compaction_trigger :
    (∀ (s : KvStore) (k v : String) (s' : KvStore), Inv s →
      s.set k v = .ok s' → s'.stale_bytes ≤ COMPACTION_THRESHOLD) ∧
    (∀ (s : KvStore) (k : String) (s' : KvStore), Inv s →
      s.remove k = .ok s' →
      s'.current_gen = s.current_gen ∧
      s'.segs.map Prod.fst = s.segs.map Prod.fst ∧
      ∃ cp, alLookup s.index k = some cp ∧
        s'.stale_bytes = s.stale_bytes + cp.len) := by
  constructor
  · intro s k v s' hinv hs
    obtain ⟨s'', hs'', _, _, _, hstale⟩ := set_ok hinv k v
    rw [hs] at hs''
    injection hs'' with h1
    rw [← h1] at hstale
    exact hstale
  · intro s k s' hinv hs
    cases hidx : alLookup s.index k with
    | none =>
      rw [remove_err (by rw [hidx]; rfl)] at hs
      exact Except.noConfusion hs
    | some cp =>
      obtain ⟨s'', hs'', _, hcg, hst, _, hsegk, _, _⟩ := remove_spec hinv hidx
      rw [hs] at hs''
      injection hs'' with h1
      rw [← h1] at hcg hst hsegk
      exact ⟨hcg, hsegk, cp, rfl, hst⟩

theorem C4_witness :
    (exStore1x.stale_bytes ≤ COMPACTION_THRESHOLD) ∧
    (exStore1r.current_gen = exStore1.current_gen ∧
     exStore1r.segs.map Prod.fst = exStore1.segs.map Prod.fst ∧
     ∃ cp, alLookup exStore1.index "a" = some cp ∧
       exStore1r.stale_bytes = exStore1.stale_bytes + cp.len) :=
  ⟨C4_compaction_trigger.1 exStore1 "x" "y" exStore1x inv_exStore1 (by rfl),
   C4_compaction_trigger.2 exStore1 "a" exStore1r inv_exStore1 (by rfl)⟩

theorem C4_counterexample :
    ∃ s s', KvStore.openStore [(0, bigEnc)] = .ok s ∧
      s.remove "k" = .ok s' ∧
      COMPACTION_THRESHOLD < s'.stale_bytes := by
  have hinv : Inv (⟨[(0, bigEnc), (1, [])], [("k", ⟨0, 0, 1048577⟩)], 1,
      0⟩ : KvStore) :=
    (openStore_inv (by simp) openStore_big).1
  have hcp : alLookup [("k", (⟨0, 0, 1048577⟩ : CommandPos))] "k" =
      some ⟨0, 0, 1048577⟩ := rfl
  obtain ⟨s', hs', _, _, hst, _, _, _, _⟩ := remove_spec hinv hcp
  refine ⟨_, s', openStore_big, hs', ?_⟩
  rw [hst]
  decide

theorem open_gens_lt {disk : List (Nat × List Nat)} {s : KvStore}
    (hwf : (disk.map Prod.fst).Nodup) (h : KvStore.openStore disk = .ok s) :
    ∀ g ∈ disk.map Prod.fst, g < s.current_gen := by
  obtain ⟨hinv, hsegs, hcg, hrep⟩ := openStore_inv hwf h
  have hperm := sorted_gen_list_perm disk
  have hle := sorted_gen_list_sorted_le disk
  intro g hg
  obtain ⟨p, hp, hpe⟩ := List.mem_map.mp hg
  have hps : p ∈ sorted_gen_list disk := hperm.mem_iff.mpr hp
  have hle2 := le_getLast_of_sorted hle p hps
  omega

/-- Claim C5 (corrected): the generation chosen by `open` is strictly above
every existing generation; on an empty directory it is 1 — not 0 as the
spec says (see the counterexample) — and on a non-empty directory it is the
highest existing generation plus one. -/
theorem C5_open_generation (disk : List (Nat × List Nat)) (s : KvStore)
    (hwf : (disk.map Prod.fst).Nodup) (h : KvStore.openStore disk = .ok s) :
    (∀ g ∈ disk.map Prod.fst, g < s.current_gen) ∧
    (disk = [] → s.current_gen = 1) ∧
    (disk ≠ [] → s.current_gen - 1 ∈ disk.map Prod.fst) := by
  obtain ⟨hinv, hsegs, hcg, hrep⟩ := openStore_inv hwf h
  refine ⟨open_gens_lt hwf h, ?_, ?_⟩
  · intro hd
    subst hd
    rw [hcg]
    rfl
  · intro hd
    have hperm := sorted_gen_list_perm disk
    have hsne : sorted_gen_list disk ≠ [] := by
      intro hx
      rw [hx] at hperm
      exact hd (List.Perm.eq_nil hperm.symm)
    have hmem := getLast_mem_of_ne_nil hsne
    rw [hcg, Nat.add_sub_cancel]
    exact (hperm.map Prod.fst).mem_iff.mp hmem

def exDisk3 : List (Nat × List Nat) := [(3, [0, 1, 97, 1, 49])]

def exOpen3 : KvStore :=
  ⟨[(3, [0, 1, 97, 1, 49]), (4, [])], [("a", ⟨3, 0, 5⟩)], 4, 0⟩

theorem load_log_ex3 :
    load_log 3 [0, 1, 97, 1, 49] [] = some ([("a", ⟨3, 0, 5⟩)], 0) := by
  rw [load_log, loadLoop_set
    (show decodeOne [0, 1, 97, 1, 49] = some (.Set "a" "1", []) from rfl),
    loadLoop_nil]
  rfl

theorem openStore_ex3 : KvStore.openStore exDisk3 = .ok exOpen3 := by
  have hA : loadAll (sorted_gen_list exDisk3) [] =
      some ([("a", ⟨3, 0, 5⟩)], 0) := by
    show loadAll [(3, [0, 1, 97, 1, 49])] [] = _
    rw [loadAll_single, load_log_ex3]
  rw [KvStore.openStore]
  simp only [hA]
  rfl

theorem C5_witness :
    (∀ g ∈ exDisk3.map Prod.fst, g < exOpen3.current_gen) ∧
    (exDisk3 = [] → exOpen3.current_gen = 1) ∧
    (exDisk3 ≠ [] → exOpen3.current_gen - 1 ∈ exDisk3.map Prod.fst) :=
  C5_open_generation exDisk3 exOpen3 (by decide) openStore_ex3

theorem C5_counterexample :
    ∃ s, KvStore.openStore [] = .ok s ∧ s.current_gen = 1 ∧
      s.current_gen ≠ 0 :=
  ⟨⟨[(1, [])], [], 1, 0⟩, openStore_empty, rfl, by decide⟩

/-- Claim C6 (corrected): on a runtime `remove` of a present key the stale
counter grows by exactly the superseded Set record's length — the Remove
record's own bytes are NOT added, contrary to the spec (see the
counterexample); during recovery (`load_log`), replaying a Remove record
adds both the superseded record's length and the Remove record's own
length. -/
theorem C6_stale_accounting :
    (∀ (s : KvStore) (k : String) (cp : CommandPos), Inv s →
      alLookup s.index k = some cp →
      ∃ s', s.remove k = .ok s' ∧
        s'.stale_bytes = s.stale_bytes + cp.len) ∧
    (∀ (gen pos st : Nat) (k : String) (idx : List (String × CommandPos))
      (cp : CommandPos), alLookup idx k = some cp →
      loadLoop gen (encodeCmd (.Remove k)) pos idx st =
        some ((alRemove idx k).1,
          st + cp.len + (encodeCmd (.Remove k)).length)) := by
  constructor
  · intro s k cp hinv hcp
    obtain ⟨s', hs', _, _, hst, _, _, _, _⟩ := remove_spec hinv hcp
    exact ⟨s', hs', hst⟩
  · intro gen pos st k idx cp hcp
    have hdec : decodeOne (encodeCmd (.Remove k)) = some (.Remove k, []) := by
      have h := decodeOne_encodeCmd (.Remove k) []
      rw [List.append_nil] at h
      exact h
    rw [loadLoop_rm hdec, loadLoop_nil]
    have hrm : (alRemove idx k).2 = some cp := by rw [alRemove_snd, hcp]
    simp only [hrm, List.length_nil, Nat.sub_zero]

theorem C6_witness :
    (∃ s', exStore1.remove "a" = .ok s' ∧
      s'.stale_bytes = exStore1.stale_bytes + (⟨1, 0, 5⟩ : CommandPos).len) ∧
    loadLoop 7 (encodeCmd (.Remove "a")) 0 [("a", ⟨1, 0, 5⟩)] 2 =
      some ((alRemove [("a", ⟨1, 0, 5⟩)] "a").1,
        2 + (⟨1, 0, 5⟩ : CommandPos).len + (encodeCmd (.Remove "a")).length) :=
  ⟨C6_stale_accounting.1 exStore1 "a" ⟨1, 0, 5⟩ inv_exStore1 (by rfl),
   C6_stale_accounting.2 7 0 2 "a" [("a", ⟨1, 0, 5⟩)] ⟨1, 0, 5⟩ (by rfl)⟩

theorem C6_counterexample :
    exStore1.remove "a" = .ok exStore1r ∧
    alLookup exStore1.index "a" = some ⟨1, 0, 5⟩ ∧
    (encodeCmd (.Remove "a")).length = 3 ∧
    exStore1r.stale_bytes = exStore1.stale_bytes + 5 ∧
    exStore1r.stale_bytes ≠ exStore1.stale_bytes + 5 + 3 := by
  refine ⟨by rfl, by rfl, by rfl, by rfl, by decide⟩

/-- Claim C7: compaction preserves the observable state: every `get`
returns the same value as before, the key set and each entry's length are
unchanged, every index entry afterwards points into the compaction segment
(generation current_gen + 1), and the stale counter is reset to 0. -/
theorem C7_compaction_preserves (s : KvStore) (hinv : Inv s) :
    ∃ s', s.compact = .ok s' ∧
      (∀ k, s'.get k = s.get k) ∧
      s'.index.map Prod.fst = s.index.map Prod.fst ∧
      (∀ q ∈ s'.index, q.2.gen = s.current_gen + 1) ∧
      s'.index.map (fun p => p.2.len) = s.index.map (fun p => p.2.len) ∧
      s'.segs.map Prod.fst = [s.current_gen + 1, s.current_gen + 2] ∧
      s'.stale_bytes = 0 := by
  obtain ⟨s', h1, h2, h3, h4, h5, h6, h7, h8, h9⟩ := compact_ok hinv
  exact ⟨s', h1, h9, h5, h6, h7, h8, h4⟩

theorem C7_witness :
    ∃ s', exStoreA.compact = .ok s' ∧
      (∀ k, s'.get k = exStoreA.get k) ∧
      s'.index.map Prod.fst = exStoreA.index.map Prod.fst ∧
      (∀ q ∈ s'.index, q.2.gen = exStoreA.current_gen + 1) ∧
      s'.index.map (fun p => p.2.len) =
        exStoreA.index.map (fun p => p.2.len) ∧
      s'.segs.map Prod.fst =
        [exStoreA.current_gen + 1, exStoreA.current_gen + 2] ∧
      s'.stale_bytes = 0 :=
  C7_compaction_preserves exStoreA inv_exStoreA

def exCompA : KvStore :=
  ⟨[(2, [0, 1, 97, 1, 51, 0, 1, 98, 1, 50]), (3, [])],
   [("a", ⟨2, 0, 5⟩), ("b", ⟨2, 5, 5⟩)], 3, 0⟩

/-- Claim C9: generation numbers increase monotonically: `open` picks a
generation strictly above every generation found on disk, and compaction
moves to the two fresh generations current_gen + 1 (compaction segment)
and current_gen + 2 (new active segment), both strictly above every
pre-existing segment generation. -/
theorem C9_generation_monotonic :
    (∀ (disk : List (Nat × List Nat)) (s : KvStore),
      (disk.map Prod.fst).Nodup → KvStore.openStore disk = .ok s →
      ∀ g ∈ disk.map Prod.fst, g < s.current_gen) ∧
    (∀ (s s' : KvStore), Inv s → s.compact = .ok s' →
      (∀ g ∈ s.segs.map Prod.fst,
        g < s.current_gen + 1 ∧ g < s.current_gen + 2) ∧
      s'.segs.map Prod.fst = [s.current_gen + 1, s.current_gen + 2] ∧
      s'.current_gen = s.current_gen + 2) := by
  constructor
  · intro disk s hwf h
    exact open_gens_lt hwf h
  · intro s s' hinv hc
    obtain ⟨s'', h1, _, hcg, _, _, _, _, hsegk, _⟩ := compact_ok hinv
    rw [hc] at h1
    injection h1 with h2
    rw [← h2] at hcg hsegk
    refine ⟨?_, hsegk, hcg⟩
    intro g hg
    obtain ⟨p, hp, hpe⟩ := List.mem_map.mp hg
    have hle := hinv.genLe p hp
    omega

theorem C9_witness :
    (∀ g ∈ exDisk3.map Prod.fst, g < exOpen3.current_gen) ∧
    ((∀ g ∈ exStoreA.segs.map Prod.fst,
        g < exStoreA.current_gen + 1 ∧ g < exStoreA.current_gen + 2) ∧
      exCompA.segs.map Prod.fst =
        [exStoreA.current_gen + 1, exStoreA.current_gen + 2] ∧
      exCompA.current_gen = exStoreA.current_gen + 2) :=
  ⟨C9_generation_monotonic.1 exDisk3 exOpen3 (by decide) openStore_ex3,
   C9_generation_monotonic.2 exStoreA exCompA inv_exStoreA (by rfl)⟩

/-- Claim C10: in every reachable state the reader table is complete: the
generation of every index entry and the current generation are present in
the segment table, so neither `get` nor `compact` can reach the
"Cannot find log reader" panic. -/
theorem C10_reader_table (s : KvStore) (h : Reachable s) :
    (∀ p ∈ s.index, (alLookup s.segs p.2.gen).isSome = true) ∧
    (alLookup s.segs s.current_gen).isSome = true ∧
    (∀ k, s.get k ≠ .error .PanicNoReader) ∧
    s.compact ≠ .error .PanicNoReader := by
  have hinv := reachable_inv h
  refine ⟨?_, hinv.curMem, ?_, ?_⟩
  · intro p hp
    obtain ⟨file, v, hl, hb, hd⟩ := entryLive_destruct (hinv.live p hp)
    rw [hl]
    rfl
  · intro k
    cases hcp : alLookup s.index k with
    | none =>
      rw [get_none_of_index hcp]
      exact fun hx => Except.noConfusion hx
    | some cp =>
      obtain ⟨v, hv⟩ := get_some_of_index hinv hcp
      rw [hv]
      exact fun hx => Except.noConfusion hx
  · obtain ⟨s', h1, _⟩ := compact_ok hinv
    rw [h1]
    exact fun hx => Except.noConfusion hx

theorem C10_witness :
    (∀ p ∈ exStoreA.index, (alLookup exStoreA.segs p.2.gen).isSome = true) ∧
    (alLookup exStoreA.segs exStoreA.current_gen).isSome = true ∧
    (∀ k, exStoreA.get k ≠ .error .PanicNoReader) ∧
    exStoreA.compact ≠ .error .PanicNoReader :=
  C10_reader_table exStoreA
    ⟨[], exOpsA, ⟨[(1, [])], [], 1, 0⟩, by simp, openStore_empty, runA⟩

/-! ### The decoded command stream (for C8) -/

/-- The key a command addresses. -/
def cmdKey : Command → String
  | .Set k _ => k
  | .Remove k => k

def isSet : Command → Bool
  | .Set _ _ => true
  | .Remove _ => false

/-- Decode a whole segment file into its list of commands (the
`Deserializer::into_iter` stream of kvs.rs line 341). -/
def fileCmds (bs : List Nat) : Option (List Command) :=
  match h : decodeOne bs with
  | none => if bs.isEmpty then some [] else none
  | some (c, r) =>
    match fileCmds r with
    | none => none
    | some cs => some (c :: cs)
termination_by bs.length
decreasing_by exact decodeOne_length_lt h

/-- All commands of all segments, in generation then append order. -/
def segsCmds : List (Nat × List Nat) → Option (List Command)
  | [] => some []
  | (_, f) :: rest =>
    match fileCmds f with
    | none => none
    | some cs =>
      match segsCmds rest with
      | none => none
      | some cs' => some (cs ++ cs')

/-- The last command in the list addressing key `k`, if any. -/
def lastCmdFor (k : String) : List Command → Option Command
  | [] => none
  | c :: rest =>
    match lastCmdFor k rest with
    | some w => some w
    | none => if cmdKey c = k then some c else none

/-- Is key `k` live after replaying `cs` on top of prior liveness `b`? -/
def liveAfter (k : String) (cs : List Command) (b : Bool) : Bool :=
  match lastCmdFor k cs with
  | some c => isSet c
  | none => b

theorem lastCmdFor_key {k : String} : ∀ {cs : List Command} {c : Command},
    lastCmdFor k cs = some c → cmdKey c = k := by
  intro cs
  induction cs with
  | nil => intro c h; exact Option.noConfusion h
  | cons c0 rest ih =>
    intro c h
    rw [lastCmdFor] at h
    cases hr : lastCmdFor k rest with
    | some w =>
      rw [hr] at h
      injection h with h1
      rw [← h1]
      exact ih hr
    | none =>
      rw [hr] at h
      by_cases hk : cmdKey c0 = k
      · rw [if_pos hk] at h
        injection h with h1
        rw [← h1]
        exact hk
      · rw [if_neg hk] at h
        exact Option.noConfusion h

theorem liveAfter_cons (k : String) (c : Command) (cs : List Command)
    (b : Bool) :
    liveAfter k (c :: cs) b =
      liveAfter k cs (if cmdKey c = k then isSet c else b) := by
  simp only [liveAfter, lastCmdFor]
  cases h : lastCmdFor k cs with
  | some w => rfl
  | none =>
    by_cases hk : cmdKey c = k
    · rw [if_pos hk, if_pos hk]
    · rw [if_neg hk, if_neg hk]

theorem liveAfter_append (k : String) (cs1 cs2 : List Command) (b : Bool) :
    liveAfter k (cs1 ++ cs2) b = liveAfter k cs2 (liveAfter k cs1 b) := by
  induction cs1 generalizing b with
  | nil => rfl
  | cons c rest ih =>
    rw [List.cons_append, liveAfter_cons, liveAfter_cons, ih]

theorem fileCmds_nil : fileCmds [] = some [] := by
  rw [fileCmds.eq_def]
  simp [decodeOne]

theorem fileCmds_cons {bs r : List Nat} {c : Command}
    (h : decodeOne bs = some (c, r)) :
    fileCmds bs =
      match fileCmds r with
      | none => none
      | some cs => some (c :: cs) := by
  rw [fileCmds.eq_def]
  split
  · next hemp => rw [hemp] at h; exact Option.noConfusion h
  · next c' r' hemp =>
    rw [hemp] at h
    injection h with h1
    injection h1 with hc hr
    subst hc
    subst hr
    rfl

theorem loadLoop_member {gen : Nat} : ∀ {bs : List Nat} {pos : Nat}
    {idx : List (String × CommandPos)} {st : Nat}
    {idx' : List (String × CommandPos)} {st' : Nat},
    loadLoop gen bs pos idx st = some (idx', st') →
    alSorted strLt idx →
    ∃ cs, fileCmds bs = some cs ∧ alSorted strLt idx' ∧
      ∀ k, (alLookup idx' k).isSome =
        liveAfter k cs ((alLookup idx k).isSome) := by
  intro bs pos idx st
  induction bs, pos, idx, st using loadLoop.induct gen with
  | case1 =>
    rename_i bs pos idx st hdec hemp
    intro idx' st' h hsort
    have hnil : bs = [] := List.isEmpty_iff.mp hemp
    subst hnil
    rw [loadLoop_nil] at h
    injection h with h1
    injection h1 with hi hs
    subst hi
    exact ⟨[], fileCmds_nil, hsort, fun k => rfl⟩
  | case2 =>
    rename_i bs pos idx st hdec hemp
    intro idx' st' h hsort
    rw [loadLoop_undecodable hdec (Bool.not_eq_true _ ▸ hemp)] at h
    exact Option.noConfusion h
  | case3 =>
    rename_i bs pos idx st r consumed k v hdec ins hdec2 ih
    intro idx' st' h hsort
    rw [loadLoop_set hdec] at h
    have hsort2 : alSorted strLt
        (alInsert strLt idx k ⟨gen, pos, bs.length - r.length⟩).1 :=
      alInsert_sorted strLt_irrefl strLt_trans strLt_total hsort k _
    obtain ⟨cs, hcs, hsort', hmem⟩ := ih h hsort2
    refine ⟨.Set k v :: cs, ?_, hsort', ?_⟩
    · rw [fileCmds_cons hdec]
      simp only [hcs]
    · intro k'
      rw [hmem k', liveAfter_cons]
      congr 1
      by_cases hk : k = k'
      · subst hk
        rw [alInsert_lookup_self]
        simp [cmdKey, isSet]
      · rw [alInsert_lookup_ne _ _ _ (fun hx => hk hx.symm)]
        simp only [cmdKey]
        rw [if_neg hk]
  | case4 =>
    rename_i bs pos idx st r consumed k hdec rem hdec2 ih
    intro idx' st' h hsort
    rw [loadLoop_rm hdec] at h
    have hsort2 : alSorted strLt (alRemove idx k).1 :=
      alRemove_sorted hsort k
    obtain ⟨cs, hcs, hsort', hmem⟩ := ih h hsort2
    refine ⟨.Remove k :: cs, ?_, hsort', ?_⟩
    · rw [fileCmds_cons hdec]
      simp only [hcs]
    · intro k'
      rw [hmem k', liveAfter_cons]
      congr 1
      by_cases hk : k = k'
      · subst hk
        rw [alRemove_lookup_self strLt_irrefl hsort k]
        simp [cmdKey, isSet]
      · rw [alRemove_lookup_ne _ _ (fun hx => hk hx.symm)]
        simp only [cmdKey]
        rw [if_neg hk]

theorem loadAll_member : ∀ {segs : List (Nat × List Nat)}
    {idx idx' : List (String × CommandPos)} {st' : Nat},
    loadAll segs idx = some (idx', st') →
    alSorted strLt idx →
    ∃ cs, segsCmds segs = some cs ∧ alSorted strLt idx' ∧
      ∀ k, (alLookup idx' k).isSome =
        liveAfter k cs ((alLookup idx k).isSome) := by
  intro segs
  induction segs with
  | nil =>
    intro idx idx' st' h hsort
    simp only [loadAll] at h
    injection h with h1
    injection h1 with hi hs
    subst hi
    exact ⟨[], rfl, hsort, fun k => rfl⟩
  | cons p rest ih =>
    obtain ⟨g, f⟩ := p
    intro idx idx' st' h hsort
    simp only [loadAll] at h
    cases hL : load_log g f idx with
    | none =>
      simp only [hL] at h
      exact Option.noConfusion h
    | some q =>
      obtain ⟨idx1, st1⟩ := q
      simp only [hL] at h
      cases hR : loadAll rest idx1 with
      | none =>
        simp only [hR] at h
        exact Option.noConfusion h
      | some q2 =>
        obtain ⟨idx2, st2⟩ := q2
        simp only [hR] at h
        injection h with h1
        injection h1 with hi hs
        subst hi
        have hL2 : loadLoop g f 0 idx 0 = some (idx1, st1) := hL
        obtain ⟨cs1, hcs1, hsort1, hmem1⟩ := loadLoop_member hL2 hsort
        obtain ⟨cs2, hcs2, hsort2, hmem2⟩ := ih hR hsort1
        refine ⟨cs1 ++ cs2, ?_, hsort2, ?_⟩
        · simp only [segsCmds, hcs1, hcs2]
        · intro k
          rw [hmem2 k, hmem1 k, liveAfter_append]

/-- The C8 index invariant: the segment stream decodes, a key is in the
index iff the last command addressing it in the stream is a Set, and each
index entry points to a byte range that decodes to a Set of its own key. -/
def IndexMatchesLog (s : KvStore) : Prop :=
  ∃ cmds, segsCmds s.segs = some cmds ∧
    (∀ k, ((alLookup s.index k).isSome = true ↔
      ∃ v, lastCmdFor k cmds = some (.Set k v))) ∧
    (∀ p ∈ s.index, ∃ file v, alLookup s.segs p.2.gen = some file ∧
      decodeCmd ((file.drop p.2.pos).take p.2.len) = some (.Set p.1 v))

theorem inv_c8 {s : KvStore} (hinv : Inv s) : IndexMatchesLog s := by
  have hrep := hinv.replay
  cases hA : loadAll s.segs [] with
  | none => rw [hA] at hrep; exact Option.noConfusion hrep
  | some q =>
    obtain ⟨idx0, st0⟩ := q
    rw [hA] at hrep
    injection hrep with h1
    have h1' : idx0 = s.index := h1
    subst h1'
    obtain ⟨cs, hcs, hsort', hmem⟩ := loadAll_member hA List.Pairwise.nil
    refine ⟨cs, hcs, ?_, ?_⟩
    · intro k
      have h2 := hmem k
      rw [liveAfter] at h2
      constructor
      · intro hk
        cases hlc : lastCmdFor k cs with
        | none =>
          rw [hlc] at h2
          rw [hk] at h2
          exact Bool.noConfusion h2
        | some c =>
          rw [hlc] at h2
          cases c with
          | Set k0 v =>
            have hkey : k0 = k := lastCmdFor_key hlc
            subst hkey
            exact ⟨v, rfl⟩
          | Remove k0 =>
            rw [hk] at h2
            exact Bool.noConfusion h2
      · intro hv
        obtain ⟨v, hv⟩ := hv
        rw [hv] at h2
        exact h2
    · intro p hp
      obtain ⟨file, v, hl, hb, hd⟩ := entryLive_destruct (hinv.live p hp)
      exact ⟨file, v, hl, hd⟩

/-- Claim C8: the index invariant holds after `open` and is preserved by
`set`, `remove` and compaction: a key is present in the index iff the
latest command addressing it across all segments (generation then append
order) is a Set, and every index entry's location decodes to a Set record
of its own key, never a Remove. -/
theorem C8_index_invariant :
    (∀ (disk : List (Nat × List Nat)) (s : KvStore),
      (disk.map Prod.fst).Nodup → KvStore.openStore disk = .ok s →
      IndexMatchesLog s) ∧
    (∀ (s : KvStore) (k v : String) (s' : KvStore), Inv s →
      s.set k v = .ok s' → IndexMatchesLog s') ∧
    (∀ (s : KvStore) (k : String) (s' : KvStore), Inv s →
      s.remove k = .ok s' → IndexMatchesLog s') ∧
    (∀ (s s' : KvStore), Inv s → s.compact = .ok s' →
      IndexMatchesLog s') := by
  refine ⟨?_, ?_, ?_, ?_⟩
  · intro disk s hwf h
    exact inv_c8 (openStore_inv hwf h).1
  · intro s k v s' hinv hs
    obtain ⟨s'', hs'', hinv', _⟩ := set_ok hinv k v
    rw [hs] at hs''
    injection hs'' with h1
    rw [← h1] at hinv'
    exact inv_c8 hinv'
  · intro s k s' hinv hs
    cases hidx : alLookup s.index k with
    | none =>
      rw [remove_err (by rw [hidx]; rfl)] at hs
      exact Except.noConfusion hs
    | some cp =>
      obtain ⟨s'', hs'', hinv', _⟩ := remove_spec hinv hidx
      rw [hs] at hs''
      injection hs'' with h1
      rw [← h1] at hinv'
      exact inv_c8 hinv'
  · intro s s' hinv hc
    obtain ⟨s'', hc'', hinv', _⟩ := compact_ok hinv
    rw [hc] at hc''
    injection hc'' with h1
    rw [← h1] at hinv'
    exact inv_c8 hinv'

theorem C8_witness :
    IndexMatchesLog exOpen3 ∧ IndexMatchesLog exStore1x ∧
    IndexMatchesLog exStore1r ∧ IndexMatchesLog exCompA :=
  ⟨C8_index_invariant.1 exDisk3 exOpen3 (by decide) openStore_ex3,
   C8_index_invariant.2.1 exStore1 "x" "y" exStore1x inv_exStore1 (by rfl),
   C8_index_invariant.2.2.1 exStore1 "a" exStore1r inv_exStore1 (by rfl),
   C8_index_invariant.2.2.2 exStoreA exCompA inv_exStoreA (by rfl)⟩

end Kvs
